import Mathlib

set_option linter.unusedSectionVars false
set_option linter.unusedVariables false

/-!
LRUCache: a capacity-bounded LRU cache with per-entry TTL.

Shallow embedding of `LRUCache.go`, followed by the properties of the cache.

Modelling conventions.

* `time.Time` and `time.Duration` are integers (nanoseconds).  A public call observes one
  clock reading, the explicit argument `now`, which serves both `isExpired` in the sweep and
  the stamp `time.Now().Add(s.ttl)`.
* A `*list.Element` of `container/list` is a natural number `id` (its address);
  `PushBack` allocates the address `nextId`.  An address that is not in the list
  behaves like an element whose `list` field is not this list: `Remove` and
  `MoveToBack` leave the list alone.
* Every `Value` of a list element is a `*listItem[K]`, so the type assertions of
  `unsafeClear` and `Get` succeed and their failure branches are left out.
* `map[K]cacheItem[V]` is an association list read through `mapGet`; `delete`
  is `mapDelete` and `m[k] = x` is `mapSet`.
* `int` is an unbounded integer: a list length never reaches `2^63`.
* A nil-pointer dereference (a panic) is the result `none`.
* `Push`, `Get` and `Remove` are sequential calls.  A critical section (the code between
  an acquisition of `mu` and its release) is atomic; `GetCheck`, `GetAct`, `RemoveCheck` and
  `RemoveAct` are the later critical sections of `Get` and `Remove`, between which another
  caller may run.
-/

/-- The payload of a list node, `listItem[K]`. -/
structure listItem (K : Type) where
  Key : K
  ExpiresAt : Int
deriving DecidableEq

/-- A node of `container/list`: its address and its `Value`. -/
structure Element (K : Type) where
  id : Nat
  Value : listItem K
deriving DecidableEq

/-- A table row, `cacheItem[V]`: the value and the address of the list node. -/
structure cacheItem (V : Type) where
  Value : V
  Node : Nat
deriving DecidableEq

/-- The cache, `LRUCache[K, V]`; `nextId` is the next free node address. -/
structure LRUCache (K V : Type) where
  ttlList : List (Element K)
  cache : List (K × cacheItem V)
  ttl : Int
  limit : Int
  nextId : Nat
deriving DecidableEq

section Defs

variable {K V : Type} [DecidableEq K]

/-- Map read `m[k]` with the comma-ok result. -/
def mapGet : List (K × cacheItem V) → K → Option (cacheItem V)
  | [], _ => none
  | p :: m, k => if p.1 = k then some p.2 else mapGet m k

/-- Map removal `delete(m, k)`. -/
def mapDelete (m : List (K × cacheItem V)) (k : K) : List (K × cacheItem V) :=
  m.filter (fun p => decide (p.1 ≠ k))

/-- Map write `m[k] = x`. -/
def mapSet (m : List (K × cacheItem V)) (k : K) (x : cacheItem V) : List (K × cacheItem V) :=
  (k, x) :: mapDelete m k

/-- The call `l.Remove(e)` of `container/list`. -/
def listRemove (l : List (Element K)) (e : Nat) : List (Element K) :=
  l.filter (fun n => decide (n.id ≠ e))

/-- The call `l.MoveToBack(e)` of `container/list`. -/
def listMoveToBack (l : List (Element K)) (e : Nat) : List (Element K) :=
  match l.find? (fun n => decide (n.id = e)) with
  | none => l
  | some n => listRemove l e ++ [n]

/-- The write `node.ExpiresAt = x` through the node at address `e`. -/
def listSetExpiresAt (l : List (Element K)) (e : Nat) (x : Int) : List (Element K) :=
  l.map (fun n => if n.id = e then { n with Value := { n.Value with ExpiresAt := x } } else n)

/-- The method `isExpired`: `time.Now().After(l.ExpiresAt)`. -/
def listItem.isExpired (l : listItem K) (now : Int) : Bool :=
  decide (l.ExpiresAt < now)

/-- The constructor `New(limit, ttl)`. -/
def New (K V : Type) (limit : Int) (ttl : Int) : LRUCache K V :=
  { ttlList := [], cache := [], ttl := ttl, limit := limit, nextId := 0 }

/-- The loop of `unsafeClear`, started at node `e` with the rest of the list behind it. -/
def clearLoop (now : Int) :
    List (Element K) → List (K × cacheItem V) → List (Element K) × List (K × cacheItem V)
  | [], c => ([], c)
  | e :: rest, c =>
    if e.Value.isExpired now then clearLoop now rest (mapDelete c e.Value.Key)
    else (e :: rest, c)

namespace LRUCache

/-- The sweep `unsafeClear`. -/
def unsafeClear (s : LRUCache K V) (now : Int) : LRUCache K V :=
  { s with
    ttlList := (clearLoop now s.ttlList s.cache).1
    cache := (clearLoop now s.ttlList s.cache).2 }

/-- The helper `unsafeRemove`; a missing row has a nil `Node`, which `Remove` dereferences. -/
def unsafeRemove (s : LRUCache K V) (key : K) : Option (LRUCache K V) :=
  match mapGet s.cache key with
  | none => none
  | some row =>
    some { s with ttlList := listRemove s.ttlList row.Node, cache := mapDelete s.cache key }

/-- The eviction step of `Push` (lines 51-53). -/
def evict (s : LRUCache K V) : Option (LRUCache K V) :=
  if s.limit ≤ (s.ttlList.length : Int) then
    match s.ttlList.head? with
    | none => none
    | some front => s.unsafeRemove front.Value.Key
  else some s

/-- The replace step of `Push` (lines 56-59). -/
def dropExisting (s : LRUCache K V) (key : K) : Option (LRUCache K V) :=
  match mapGet s.cache key with
  | some _ => s.unsafeRemove key
  | none => some s

/-- The insertion step of `Push` (lines 61-68). -/
def pushBack (s : LRUCache K V) (now : Int) (key : K) (value : V) : LRUCache K V :=
  { s with
    ttlList := s.ttlList ++ [{ id := s.nextId, Value := { Key := key, ExpiresAt := now + s.ttl } }]
    cache := mapSet s.cache key { Value := value, Node := s.nextId }
    nextId := s.nextId + 1 }

/-- The method `Push`. -/
def Push (s : LRUCache K V) (now : Int) (key : K) (value : V) : Option (LRUCache K V) :=
  match (s.unsafeClear now).evict with
  | none => none
  | some s2 =>
    match s2.dropExisting key with
    | none => none
    | some s3 => some (s3.pushBack now key value)

/-- The method `Remove`. -/
def Remove (s : LRUCache K V) (now : Int) (key : K) : Bool × LRUCache K V :=
  let s1 := s.unsafeClear now
  match mapGet s1.cache key with
  | none => (false, s1)
  | some elem =>
    let s2 := s1.unsafeClear now
    (true, { s2 with ttlList := listRemove s2.ttlList elem.Node, cache := mapDelete s2.cache key })

/-- The method `Get`; the zero value of `V` is `default`. -/
def Get [Inhabited V] (s : LRUCache K V) (now : Int) (key : K) : (V × Bool) × LRUCache K V :=
  let s1 := s.unsafeClear now
  match mapGet s1.cache key with
  | none => ((default, false), s1)
  | some v =>
    let l := listMoveToBack (listSetExpiresAt s1.ttlList v.Node (now + s1.ttl)) v.Node
    let s2 := { s1 with ttlList := l }
    match mapGet s2.cache key with
    | none => ((default, true), s2)
    | some row => ((row.Value, true), s2)

/-- The method `Len`. -/
def Len (s : LRUCache K V) : Int :=
  (s.ttlList.length : Int)

end LRUCache

end Defs

section Abstraction

variable {K V : Type} [DecidableEq K]

namespace LRUCache

/-- The keys of the ordering list, front to back. -/
def keys (s : LRUCache K V) : List K :=
  s.ttlList.map (fun n => n.Value.Key)

/-- The tracked entries front to back: key, expiration and the value the table holds. -/
def entries (s : LRUCache K V) : List (K × Int × Option V) :=
  s.ttlList.map (fun n =>
    (n.Value.Key, n.Value.ExpiresAt, (mapGet s.cache n.Value.Key).map (fun r => r.Value)))

/-- The list/table bijection.  No key occurs in two list nodes, the row of every node's key
refers to that node, and every row's key has a node.  The first, second and fourth conjunct
state what holds of every Go heap and map: the nodes of a list are distinct objects, a fresh
allocation differs from the live ones, and a map has one row per key. -/
def Bijection (s : LRUCache K V) : Prop :=
  (s.ttlList.map (fun n => n.id)).Nodup ∧
  (∀ n ∈ s.ttlList, n.id < s.nextId) ∧
  s.keys.Nodup ∧
  (s.cache.map Prod.fst).Nodup ∧
  (∀ n ∈ s.ttlList, (mapGet s.cache n.Value.Key).map (fun r => r.Node) = some n.id) ∧
  (∀ p ∈ s.cache, p.1 ∈ s.keys)

instance (s : LRUCache K V) : Decidable s.Bijection := by
  unfold Bijection; infer_instance

/-- Removal of key `k` from both structures (what `unsafeRemove` does under the bijection). -/
def dropKey (s : LRUCache K V) (k : K) : LRUCache K V :=
  { s with
    ttlList := s.ttlList.filter (fun n => decide (n.Value.Key ≠ k))
    cache := mapDelete s.cache k }

/-- The eviction step of `Push` when it does not fail: drop the front key of a full list. -/
def evictFront (s : LRUCache K V) : LRUCache K V :=
  match s.ttlList.head? with
  | none => s
  | some front => if s.limit ≤ (s.ttlList.length : Int) then s.dropKey front.Value.Key else s

/-- The effect of a successful `Get` on the swept state: the node of `k`, at address `e`,
is re-stamped and moved to the back. -/
def touch (s : LRUCache K V) (now : Int) (k : K) (e : Nat) : LRUCache K V :=
  { s with
    ttlList := s.ttlList.filter (fun n => decide (n.Value.Key ≠ k)) ++
      [{ id := e, Value := { Key := k, ExpiresAt := now + s.ttl } }] }

end LRUCache

end Abstraction

/-- A call of the public interface together with the clock reading it observes. -/
inductive Op (K V : Type) where
  | push (now : Int) (key : K) (value : V)
  | get (now : Int) (key : K)
  | remove (now : Int) (key : K)
deriving DecidableEq

section Runs

variable {K V : Type} [DecidableEq K]

/-- The clock reading of a call. -/
def Op.time : Op K V → Int
  | .push now _ _ => now
  | .get now _ => now
  | .remove now _ => now

/-- The key a call is about. -/
def Op.key : Op K V → K
  | .push _ key _ => key
  | .get _ key => key
  | .remove _ key => key

namespace LRUCache

/-- One call on the cache; the state it leaves, `none` when the call panics. -/
def step [Inhabited V] (s : LRUCache K V) : Op K V → Option (LRUCache K V)
  | .push now key value => s.Push now key value
  | .get now key => some (s.Get now key).2
  | .remove now key => some (s.Remove now key).2

/-- A sequential run of calls. -/
def run [Inhabited V] (s : LRUCache K V) : List (Op K V) → Option (LRUCache K V)
  | [] => some s
  | op :: ops =>
    match s.step op with
    | none => none
    | some s1 => s1.run ops

end LRUCache

/-- Every node that has a node of key `k` at or behind it expires no later than `T`. -/
def expiryGuard (k : K) (T : Int) : List (Element K) → Prop
  | [] => True
  | a :: rest =>
    (k ∈ (a :: rest).map (fun n => n.Value.Key) → a.Value.ExpiresAt ≤ T) ∧ expiryGuard k T rest

/-- The state of `TestLRUEviction` after `Push(1)`, `Push(2)`, `Push(3)` at the times 0, 1, 2
on a cache of capacity 2 with ttl 60: key 1 has been evicted. -/
def evictionScenario : LRUCache Nat String :=
  { ttlList := [{ id := 1, Value := { Key := 2, ExpiresAt := 61 } },
                { id := 2, Value := { Key := 3, ExpiresAt := 62 } }]
    cache := [(3, { Value := "three", Node := 2 }), (2, { Value := "two", Node := 1 })]
    ttl := 60
    limit := 2
    nextId := 3 }


/-- The state of `TestTTLRefreshOnGet` after `Push(1, "one")` at time 0 on a cache of
capacity 3 with ttl 100. -/
def refreshScenario : LRUCache Nat String :=
  { ttlList := [{ id := 0, Value := { Key := 1, ExpiresAt := 100 } }]
    cache := [(1, { Value := "one", Node := 0 })]
    ttl := 100
    limit := 3
    nextId := 1 }


/-- The state of `TestReplaceExisting` and `TestRemove` after `Push(1, "one")` at time 0 on
a cache of capacity 3 with ttl 60. -/
def singleEntryScenario : LRUCache Nat String :=
  { ttlList := [{ id := 0, Value := { Key := 1, ExpiresAt := 60 } }]
    cache := [(1, { Value := "one", Node := 0 })]
    ttl := 60
    limit := 3
    nextId := 1 }


/-- Order-monotonicity of the ordering list: expirations do not decrease front to back. -/
def expiryOrdered (l : List (Element K)) : Prop :=
  l.Pairwise (fun a b => a.Value.ExpiresAt ≤ b.Value.ExpiresAt)

instance (l : List (Element K)) : Decidable (expiryOrdered l) := by
  unfold expiryOrdered; infer_instance

namespace LRUCache

/-- The second critical section of `Get` (lines 100-108, under `RLock`): the membership
check.  It returns the row it read, `none` when `Get` returns not found. -/
def GetCheck (s : LRUCache K V) (key : K) : Option (cacheItem V) :=
  mapGet s.cache key

/-- The third critical section of `Get` (lines 109-123, under `Lock`), entered with the row
`v` that the membership check read before the lock was released. -/
def GetAct [Inhabited V] (s : LRUCache K V) (now : Int) (key : K) (v : cacheItem V) :
    (V × Bool) × LRUCache K V :=
  let l := listMoveToBack (listSetExpiresAt s.ttlList v.Node (now + s.ttl)) v.Node
  let s2 := { s with ttlList := l }
  match mapGet s2.cache key with
  | none => ((default, true), s2)
  | some row => ((row.Value, true), s2)

/-- The second critical section of `Remove` (lines 76-84, under `RLock`): the membership
check. -/
def RemoveCheck (s : LRUCache K V) (key : K) : Option (cacheItem V) :=
  mapGet s.cache key

/-- The third critical section of `Remove` (lines 85-92, under `Lock`), entered with the row
`elem` that the membership check read before the lock was released. -/
def RemoveAct (s : LRUCache K V) (now : Int) (key : K) (elem : cacheItem V) :
    Bool × LRUCache K V :=
  let s2 := s.unsafeClear now
  (true, { s2 with ttlList := listRemove s2.ttlList elem.Node, cache := mapDelete s2.cache key })

end LRUCache

/-- The state after `Push(1, "one")` and `Push(2, "two")` at the times 0 and 1 on a cache of
capacity 2 with ttl 60: the cache is full. -/
def fullScenario : LRUCache Nat String :=
  { ttlList := [{ id := 0, Value := { Key := 1, ExpiresAt := 60 } },
                { id := 1, Value := { Key := 2, ExpiresAt := 61 } }]
    cache := [(2, { Value := "two", Node := 1 }), (1, { Value := "one", Node := 0 })]
    ttl := 60
    limit := 2
    nextId := 2 }

/-- The state of `TestClearExpired` after `Push(1, "one")` and `Push(2, "two")` at the times
0 and 1 on a cache of capacity 10 with ttl 100. -/
def clearExpiredScenario : LRUCache Nat String :=
  { ttlList := [{ id := 0, Value := { Key := 1, ExpiresAt := 100 } },
                { id := 1, Value := { Key := 2, ExpiresAt := 101 } }]
    cache := [(2, { Value := "two", Node := 1 }), (1, { Value := "one", Node := 0 })]
    ttl := 100
    limit := 10
    nextId := 2 }


end Runs

section MapLemmas

variable {K V : Type} [DecidableEq K]

theorem mapGet_mapDelete (m : List (K × cacheItem V)) (k k' : K) :
    mapGet (mapDelete m k) k' = if k' = k then none else mapGet m k' := by
  induction m with
  | nil => simp [mapDelete, mapGet]
  | cons p m ih =>
    unfold mapDelete at ih ⊢
    by_cases hp : p.1 = k
    · simp only [List.filter, hp, ne_eq, not_true_eq_false, decide_False, ih, mapGet]
      by_cases hk : k' = k
      · simp [hk]
      · have : ¬ k = k' := fun h => hk h.symm
        simp [hk, this]
    · simp only [List.filter, hp, ne_eq, not_false_eq_true, decide_True, mapGet, ih]
      by_cases hk : k' = k
      · have : ¬ p.1 = k' := by rw [hk]; exact hp
        simp [hk, hp]
      · simp [hk]

theorem mapGet_mapSet (m : List (K × cacheItem V)) (k k' : K) (x : cacheItem V) :
    mapGet (mapSet m k x) k' = if k' = k then some x else mapGet m k' := by
  unfold mapSet
  by_cases hk : k' = k
  · simp [mapGet, hk]
  · have : ¬ k = k' := fun h => hk h.symm
    simp [mapGet, hk, this, mapGet_mapDelete]

theorem mapGet_eq_none_iff (m : List (K × cacheItem V)) (k : K) :
    mapGet m k = none ↔ k ∉ m.map Prod.fst := by
  induction m with
  | nil => simp [mapGet]
  | cons p m ih =>
    by_cases hp : p.1 = k
    · simp [mapGet, hp]
    · have : ¬ k = p.1 := fun h => hp h.symm
      simp [mapGet, hp, ih, this]

theorem mapGet_some_mem {m : List (K × cacheItem V)} {k : K} {r : cacheItem V}
    (h : mapGet m k = some r) : (k, r) ∈ m := by
  induction m with
  | nil => simp [mapGet] at h
  | cons p m ih =>
    by_cases hp : p.1 = k
    · simp only [mapGet, hp, if_true, Option.some.injEq] at h
      have : p = (k, r) := by rw [← hp, ← h]
      simp [this]
    · simp only [mapGet, hp, if_false] at h
      exact List.mem_cons_of_mem _ (ih h)

theorem mapDelete_eq_self {m : List (K × cacheItem V)} {k : K} (h : mapGet m k = none) :
    mapDelete m k = m := by
  rw [mapGet_eq_none_iff] at h
  unfold mapDelete
  rw [List.filter_eq_self]
  intro p hp
  have : p.1 ≠ k := fun e => h (by rw [← e]; exact List.mem_map_of_mem _ hp)
  simpa using this

end MapLemmas

section StepLemmas

variable {K V : Type} [DecidableEq K]

namespace LRUCache

theorem mem_keys {s : LRUCache K V} {k : K} :
    k ∈ s.keys ↔ ∃ n ∈ s.ttlList, n.Value.Key = k := by
  simp [keys]

theorem Bijection.key_inj {s : LRUCache K V} (h : s.Bijection) {a b : Element K}
    (ha : a ∈ s.ttlList) (hb : b ∈ s.ttlList) (hk : a.Value.Key = b.Value.Key) : a = b :=
  List.inj_on_of_nodup_map h.2.2.1 ha hb hk

theorem Bijection.id_inj {s : LRUCache K V} (h : s.Bijection) {a b : Element K}
    (ha : a ∈ s.ttlList) (hb : b ∈ s.ttlList) (hk : a.id = b.id) : a = b :=
  List.inj_on_of_nodup_map h.1 ha hb hk

/-- Under the bijection a row of key `k` comes with the node of `k`. -/
theorem Bijection.node_of_row {s : LRUCache K V} (h : s.Bijection) {k : K} {r : cacheItem V}
    (hr : mapGet s.cache k = some r) :
    ∃ n ∈ s.ttlList, n.Value.Key = k ∧ n.id = r.Node := by
  have hm := mapGet_some_mem hr
  have hk : k ∈ s.keys := h.2.2.2.2.2 _ hm
  obtain ⟨n, hn, hnk⟩ := mem_keys.1 hk
  refine ⟨n, hn, hnk, ?_⟩
  have := h.2.2.2.2.1 n hn
  rw [hnk, hr] at this
  simpa using this.symm

theorem Bijection.row_of_node {s : LRUCache K V} (h : s.Bijection) {n : Element K}
    (hn : n ∈ s.ttlList) : ∃ r, mapGet s.cache n.Value.Key = some r ∧ r.Node = n.id := by
  have := h.2.2.2.2.1 n hn
  cases hr : mapGet s.cache n.Value.Key with
  | none => rw [hr] at this; simp at this
  | some r => rw [hr] at this; exact ⟨r, rfl, by simpa using this⟩

theorem Bijection.not_mem_keys {s : LRUCache K V} (h : s.Bijection) {k : K}
    (hr : mapGet s.cache k = none) : k ∉ s.keys := by
  intro hk
  obtain ⟨n, hn, hnk⟩ := mem_keys.1 hk
  obtain ⟨r, hr', _⟩ := h.row_of_node hn
  rw [hnk, hr] at hr'
  exact Option.noConfusion hr'

/-- Removing the node a row refers to is removing the node of the row's key. -/
theorem Bijection.listRemove_eq {s : LRUCache K V} (h : s.Bijection) {k : K} {r : cacheItem V}
    (hr : mapGet s.cache k = some r) :
    listRemove s.ttlList r.Node = s.ttlList.filter (fun n => decide (n.Value.Key ≠ k)) := by
  obtain ⟨n, hn, hnk, hni⟩ := h.node_of_row hr
  unfold listRemove
  apply List.filter_congr
  intro m hm
  have : m.id = r.Node ↔ m.Value.Key = k := by
    constructor
    · intro e
      have := h.id_inj hm hn (by rw [e, hni])
      rw [this, hnk]
    · intro e
      have := h.key_inj hm hn (by rw [e, hnk])
      rw [this, hni]
  simp [this]

theorem dropKey_eq_self {s : LRUCache K V} (h : s.Bijection) {k : K}
    (hr : mapGet s.cache k = none) : s.dropKey k = s := by
  have hk := h.not_mem_keys hr
  unfold dropKey
  rw [mapDelete_eq_self hr]
  have : s.ttlList.filter (fun n => decide (n.Value.Key ≠ k)) = s.ttlList := by
    rw [List.filter_eq_self]
    intro n hn
    have : n.Value.Key ≠ k := fun e => hk (mem_keys.2 ⟨n, hn, e⟩)
    simpa using this
  rw [this]

theorem Bijection.dropKey {s : LRUCache K V} (h : s.Bijection) (k : K) :
    (s.dropKey k).Bijection := by
  obtain ⟨h1, h2, h3, h4, h5, h6⟩ := h
  refine ⟨?_, ?_, ?_, ?_, ?_, ?_⟩
  · exact h1.sublist ((List.filter_sublist _).map _)
  · intro n hn
    exact h2 n (List.mem_of_mem_filter hn)
  · exact h3.sublist ((List.filter_sublist _).map _)
  · exact h4.sublist ((List.filter_sublist _).map _)
  · intro n hn
    have hn' := List.mem_filter.1 hn
    have hne : n.Value.Key ≠ k := by simpa using hn'.2
    show (mapGet (mapDelete s.cache k) n.Value.Key).map _ = _
    rw [mapGet_mapDelete, if_neg hne]
    exact h5 n hn'.1
  · intro p hp
    have hp' := List.mem_filter.1 hp
    have hne : p.1 ≠ k := by simpa using hp'.2
    obtain ⟨n, hn, hnk⟩ := mem_keys.1 (h6 p hp'.1)
    refine mem_keys.2 ⟨n, ?_, hnk⟩
    exact List.mem_filter.2 ⟨hn, by simpa [hnk] using hne⟩

theorem unsafeRemove_eq {s : LRUCache K V} (h : s.Bijection) {k : K} {r : cacheItem V}
    (hr : mapGet s.cache k = some r) : s.unsafeRemove k = some (s.dropKey k) := by
  unfold unsafeRemove
  rw [hr]
  simp only [h.listRemove_eq hr, dropKey]

theorem dropExisting_eq {s : LRUCache K V} (h : s.Bijection) (k : K) :
    s.dropExisting k = some (s.dropKey k) := by
  unfold dropExisting
  cases hr : mapGet s.cache k with
  | none => simp [dropKey_eq_self h hr]
  | some r => simpa using unsafeRemove_eq h hr

theorem evict_eq {s : LRUCache K V} (h : s.Bijection) (hl : 1 ≤ s.limit) :
    s.evict = some s.evictFront := by
  unfold evict evictFront
  cases hh : s.ttlList.head? with
  | none =>
    have : s.ttlList = [] := by simpa using hh
    have hlen : ¬ s.limit ≤ ((s.ttlList.length : Nat) : Int) := by
      rw [this]; simp; omega
    simp [hlen]
  | some front =>
    by_cases hlen : s.limit ≤ ((s.ttlList.length : Nat) : Int)
    · simp only [hlen, if_true]
      have hf : front ∈ s.ttlList := List.mem_of_mem_head? hh
      obtain ⟨r, hr, _⟩ := h.row_of_node hf
      exact unsafeRemove_eq h hr
    · simp [hlen]

theorem Bijection.evictFront {s : LRUCache K V} (h : s.Bijection) : s.evictFront.Bijection := by
  unfold LRUCache.evictFront
  cases s.ttlList.head? with
  | none => exact h
  | some front =>
    by_cases hlen : s.limit ≤ ((s.ttlList.length : Nat) : Int)
    · simpa [hlen] using h.dropKey _
    · simpa [hlen] using h

end LRUCache

end StepLemmas

section SweepLemmas

variable {K V : Type} [DecidableEq K]

theorem clearLoop_fst (now : Int) (l : List (Element K)) (c : List (K × cacheItem V)) :
    (clearLoop now l c).1 = l.dropWhile (fun n => n.Value.isExpired now) := by
  induction l generalizing c with
  | nil => rfl
  | cons e rest ih =>
    by_cases he : e.Value.isExpired now = true
    · simp [clearLoop, he, ih, List.dropWhile]
    · simp [clearLoop, he, List.dropWhile]

theorem mapGet_clearLoop (now : Int) (l : List (Element K)) (c : List (K × cacheItem V)) (k : K) :
    mapGet (clearLoop now l c).2 k =
      if k ∈ (l.takeWhile (fun n => n.Value.isExpired now)).map (fun n => n.Value.Key)
      then none else mapGet c k := by
  induction l generalizing c with
  | nil => simp [clearLoop]
  | cons e rest ih =>
    by_cases he : e.Value.isExpired now = true
    · simp only [clearLoop, he, if_true, ih, List.takeWhile, List.map_cons, List.mem_cons,
        mapGet_mapDelete]
      by_cases hk : k = e.Value.Key
      · simp [hk]
      · simp [hk]
    · simp [clearLoop, he, List.takeWhile]

theorem clearLoop_of_not_expired (now : Int) (l : List (Element K)) (c : List (K × cacheItem V))
    (h : ∀ e, l.head? = some e → e.Value.isExpired now = false) :
    clearLoop now l c = (l, c) := by
  cases l with
  | nil => rfl
  | cons e rest =>
    have := h e rfl
    simp [clearLoop, this]

theorem clearLoop_head_not_expired (now : Int) (l : List (Element K)) (c : List (K × cacheItem V)) :
    ∀ e, (clearLoop now l c).1.head? = some e → e.Value.isExpired now = false := by
  induction l generalizing c with
  | nil => intro e h; simp [clearLoop] at h
  | cons a rest ih =>
    intro e h
    by_cases he : a.Value.isExpired now = true
    · simp only [clearLoop, he, if_true] at h
      exact ih _ e h
    · simp only [clearLoop, he] at h
      simp at h
      rw [← h]
      simpa using he

namespace LRUCache

theorem unsafeClear_ttlList (s : LRUCache K V) (now : Int) :
    (s.unsafeClear now).ttlList = s.ttlList.dropWhile (fun n => n.Value.isExpired now) :=
  clearLoop_fst now s.ttlList s.cache

theorem mapGet_unsafeClear (s : LRUCache K V) (now : Int) (k : K) :
    mapGet (s.unsafeClear now).cache k =
      if k ∈ (s.ttlList.takeWhile (fun n => n.Value.isExpired now)).map (fun n => n.Value.Key)
      then none else mapGet s.cache k :=
  mapGet_clearLoop now s.ttlList s.cache k

/-- A sweep that finds the front node live (or no node) changes nothing. -/
theorem unsafeClear_of_not_expired (s : LRUCache K V) (now : Int)
    (h : ∀ e, s.ttlList.head? = some e → e.Value.isExpired now = false) :
    s.unsafeClear now = s := by
  unfold unsafeClear
  rw [clearLoop_of_not_expired now _ _ h]

/-- A second sweep at the same clock reading changes nothing. -/
theorem unsafeClear_idem (s : LRUCache K V) (now : Int) :
    (s.unsafeClear now).unsafeClear now = s.unsafeClear now :=
  unsafeClear_of_not_expired _ now (clearLoop_head_not_expired now s.ttlList s.cache)

theorem unsafeClear_ttl (s : LRUCache K V) (now : Int) : (s.unsafeClear now).ttl = s.ttl := rfl

theorem unsafeClear_limit (s : LRUCache K V) (now : Int) : (s.unsafeClear now).limit = s.limit := rfl

theorem unsafeClear_nextId (s : LRUCache K V) (now : Int) :
    (s.unsafeClear now).nextId = s.nextId := rfl

theorem clearLoop_bijection (now : Int) (ttl limit : Int) (nid : Nat) (l : List (Element K))
    (c : List (K × cacheItem V))
    (h : Bijection { ttlList := l, cache := c, ttl := ttl, limit := limit, nextId := nid }) :
    Bijection { ttlList := (clearLoop now l c).1, cache := (clearLoop now l c).2,
                ttl := ttl, limit := limit, nextId := nid } := by
  induction l generalizing c with
  | nil => simpa [clearLoop] using h
  | cons e rest ih =>
    by_cases he : e.Value.isExpired now = true
    · simp only [clearLoop, he, if_true]
      apply ih
      have hd := h.dropKey e.Value.Key
      have hnd : (e :: rest).map (fun n => n.Value.Key) |>.Nodup := h.2.2.1
      have hrest : (e :: rest).filter (fun n => decide (n.Value.Key ≠ e.Value.Key)) = rest := by
        rw [List.map_cons, List.nodup_cons] at hnd
        simp only [List.filter, ne_eq, not_true_eq_false, decide_False]
        rw [List.filter_eq_self]
        intro n hn
        have : n.Value.Key ≠ e.Value.Key := fun e' => hnd.1 (by
          rw [← e']; exact List.mem_map_of_mem (fun n => n.Value.Key) hn)
        simpa using this
      simp only [dropKey, hrest] at hd
      exact hd
    · simpa [clearLoop, he] using h

theorem Bijection.unsafeClear {s : LRUCache K V} (h : s.Bijection) (now : Int) :
    (s.unsafeClear now).Bijection :=
  clearLoop_bijection now s.ttl s.limit s.nextId s.ttlList s.cache h

/-- Under the bijection the sweep keeps the row of every surviving node. -/
theorem mapGet_unsafeClear_of_mem {s : LRUCache K V} (h : s.Bijection) (now : Int)
    {n : Element K} (hn : n ∈ (s.unsafeClear now).ttlList) :
    mapGet (s.unsafeClear now).cache n.Value.Key = mapGet s.cache n.Value.Key := by
  rw [mapGet_unsafeClear]
  rw [unsafeClear_ttlList] at hn
  have hnd : s.keys.Nodup := h.2.2.1
  have hsplit := List.takeWhile_append_dropWhile (fun n => n.Value.isExpired now) s.ttlList
  unfold keys at hnd
  rw [← hsplit, List.map_append] at hnd
  have hdis := (List.nodup_append.1 hnd).2.2
  have hmem := List.mem_map_of_mem (fun n => n.Value.Key) hn
  have : n.Value.Key ∉ (s.ttlList.takeWhile (fun n => n.Value.isExpired now)).map
      (fun n => n.Value.Key) := fun hx => hdis hx hmem
  rw [if_neg this]

theorem entries_unsafeClear {s : LRUCache K V} (h : s.Bijection) (now : Int) :
    (s.unsafeClear now).entries = s.entries.dropWhile (fun e => decide (e.2.1 < now)) := by
  have key : ∀ l : List (Element K), ∀ f : Element K → Option V,
      (l.dropWhile (fun n => n.Value.isExpired now)).map
        (fun n => (n.Value.Key, n.Value.ExpiresAt, f n)) =
      (l.map (fun n => (n.Value.Key, n.Value.ExpiresAt, f n))).dropWhile
        (fun e => decide (e.2.1 < now)) := by
    intro l f
    induction l with
    | nil => rfl
    | cons a rest ih =>
      by_cases ha : a.Value.ExpiresAt < now
      · simp only [listItem.isExpired] at ih
        simp [List.dropWhile, listItem.isExpired, ha, ih]
      · simp [List.dropWhile, listItem.isExpired, ha]
  unfold entries
  rw [← key]
  rw [← unsafeClear_ttlList]
  apply List.map_congr_left
  intro n hn
  rw [mapGet_unsafeClear_of_mem h now hn]

end LRUCache

end SweepLemmas

section OperationLemmas

variable {K V : Type} [DecidableEq K]

theorem listRemove_listSetExpiresAt (l : List (Element K)) (e : Nat) (x : Int) :
    listRemove (listSetExpiresAt l e x) e = listRemove l e := by
  induction l with
  | nil => rfl
  | cons a rest ih =>
    simp only [listRemove, listSetExpiresAt] at ih ⊢
    by_cases ha : a.id = e
    · simp only [List.map_cons, ha, if_true]
      rw [List.filter_cons_of_neg (by simp), List.filter_cons_of_neg (by simp [ha])]
      exact ih
    · simp only [List.map_cons, ha, if_false]
      rw [List.filter_cons_of_pos (by simp [ha]), List.filter_cons_of_pos (by simp [ha])]
      rw [ih]

theorem find?_listSetExpiresAt (l : List (Element K)) (e : Nat) (x : Int) :
    (listSetExpiresAt l e x).find? (fun n => decide (n.id = e)) =
      (l.find? (fun n => decide (n.id = e))).map
        (fun n => { n with Value := { n.Value with ExpiresAt := x } }) := by
  induction l with
  | nil => rfl
  | cons a rest ih =>
    unfold listSetExpiresAt at ih ⊢
    by_cases ha : a.id = e
    · simp [List.find?, ha]
    · simp [List.find?, ha, ih]

namespace LRUCache

theorem Bijection.find?_node {s : LRUCache K V} (h : s.Bijection) {n : Element K}
    (hn : n ∈ s.ttlList) : s.ttlList.find? (fun m => decide (m.id = n.id)) = some n := by
  cases hf : s.ttlList.find? (fun m => decide (m.id = n.id)) with
  | none =>
    have := List.find?_eq_none.1 hf n hn
    simp at this
  | some m =>
    have hm := List.mem_of_find?_eq_some hf
    have hid := List.find?_some hf
    have : m.id = n.id := by simpa using hid
    rw [h.id_inj hm hn this]

theorem mapGet_dropKey (s : LRUCache K V) (k k' : K) :
    mapGet (s.dropKey k).cache k' = if k' = k then none else mapGet s.cache k' :=
  mapGet_mapDelete s.cache k k'

theorem Bijection.pushBack {s : LRUCache K V} (h : s.Bijection) (now : Int) {k : K} (v : V)
    (hk : mapGet s.cache k = none) : (s.pushBack now k v).Bijection := by
  have hnk := h.not_mem_keys hk
  obtain ⟨h1, h2, h3, h4, h5, h6⟩ := h
  refine ⟨?_, ?_, ?_, ?_, ?_, ?_⟩
  · show ((s.ttlList ++ [_]).map _).Nodup
    rw [List.map_append, List.nodup_append]
    refine ⟨h1, by simp, ?_⟩
    intro a ha hb
    obtain ⟨n, hn, rfl⟩ := List.mem_map.1 ha
    have := h2 n hn
    simp at hb
    omega
  · intro n hn
    show n.id < s.nextId + 1
    have : n ∈ s.ttlList ++ [_] := hn
    rcases List.mem_append.1 this with hn | hn
    · have := h2 n hn; omega
    · simp at hn; rw [hn]; simp
  · show ((s.ttlList ++ [_]).map _).Nodup
    rw [List.map_append, List.nodup_append]
    refine ⟨h3, by simp, ?_⟩
    intro a ha hb
    simp at hb
    rw [hb] at ha
    exact hnk ha
  · show ((mapSet s.cache k _).map Prod.fst).Nodup
    unfold mapSet
    rw [mapDelete_eq_self hk, List.map_cons, List.nodup_cons]
    exact ⟨(mapGet_eq_none_iff _ _).1 hk, h4⟩
  · intro n hn
    show (mapGet (mapSet s.cache k _) n.Value.Key).map _ = _
    have : n ∈ s.ttlList ++ [_] := hn
    rw [mapGet_mapSet]
    rcases List.mem_append.1 this with hn | hn
    · have hne : n.Value.Key ≠ k := fun e => hnk (mem_keys.2 ⟨n, hn, e⟩)
      rw [if_neg hne]
      exact h5 n hn
    · simp at hn; rw [hn]; simp
  · intro p hp
    have hp' : p ∈ mapSet s.cache k _ := hp
    unfold mapSet at hp'
    rw [mapDelete_eq_self hk] at hp'
    show p.1 ∈ (s.ttlList ++ [_]).map _
    rw [List.map_append, List.mem_append]
    rcases List.mem_cons.1 hp' with hp' | hp'
    · right; rw [hp']; simp
    · left; exact h6 p hp'

/-- What `Push` computes on a state satisfying the bijection, when `limit ≥ 1`. -/
theorem Push_eq {s : LRUCache K V} (h : s.Bijection) (hl : 1 ≤ s.limit) (now : Int) (k : K) (v : V) :
    s.Push now k v = some ((((s.unsafeClear now).evictFront).dropKey k).pushBack now k v) := by
  unfold Push
  have h1 := h.unsafeClear now
  rw [evict_eq h1 (by simpa [unsafeClear_limit] using hl)]
  simp only
  rw [dropExisting_eq h1.evictFront k]

theorem Bijection.Push {s s' : LRUCache K V} (h : s.Bijection) (hl : 1 ≤ s.limit) {now : Int}
    {k : K} {v : V} (hp : s.Push now k v = some s') : s'.Bijection := by
  rw [Push_eq h hl] at hp
  have hk : mapGet (((s.unsafeClear now).evictFront).dropKey k).cache k = none := by
    rw [mapGet_dropKey]; simp
  have := ((h.unsafeClear now).evictFront.dropKey k).pushBack now v hk
  rw [← Option.some.inj hp]
  exact this

/-- What `Remove` computes when the key has a row after the sweep. -/
theorem Remove_eq_of_some {s : LRUCache K V} (h : s.Bijection) {now : Int} {k : K}
    {r : cacheItem V} (hr : mapGet (s.unsafeClear now).cache k = some r) :
    s.Remove now k = (true, (s.unsafeClear now).dropKey k) := by
  unfold Remove
  simp only [hr, unsafeClear_idem]
  rw [(h.unsafeClear now).listRemove_eq hr]
  rfl

theorem Remove_eq_of_none {s : LRUCache K V} {now : Int} {k : K}
    (hr : mapGet (s.unsafeClear now).cache k = none) :
    s.Remove now k = (false, s.unsafeClear now) := by
  unfold Remove
  simp only [hr]

theorem Get_eq_of_none [Inhabited V] {s : LRUCache K V} {now : Int} {k : K}
    (hr : mapGet (s.unsafeClear now).cache k = none) :
    s.Get now k = ((default, false), s.unsafeClear now) := by
  unfold Get
  simp only [hr]

/-- What `Get` computes when the key has a row after the sweep. -/
theorem Get_eq_of_some [Inhabited V] {s : LRUCache K V} (h : s.Bijection) {now : Int} {k : K}
    {r : cacheItem V} (hr : mapGet (s.unsafeClear now).cache k = some r) :
    s.Get now k = ((r.Value, true), (s.unsafeClear now).touch now k r.Node) := by
  have h1 := h.unsafeClear now
  obtain ⟨n, hn, hnk, hni⟩ := h1.node_of_row hr
  unfold Get
  simp only [hr]
  have hmove : listMoveToBack (listSetExpiresAt (s.unsafeClear now).ttlList r.Node
      (now + (s.unsafeClear now).ttl)) r.Node =
      (s.unsafeClear now).ttlList.filter (fun n => decide (n.Value.Key ≠ k)) ++
        [{ id := r.Node, Value := { Key := k, ExpiresAt := now + (s.unsafeClear now).ttl } }] := by
    unfold listMoveToBack
    rw [find?_listSetExpiresAt, listRemove_listSetExpiresAt, ← hni, h1.find?_node hn, hni,
      h1.listRemove_eq hr]
    simp [← hni, ← hnk]
  rw [hmove]
  rfl

theorem Bijection.touch {s : LRUCache K V} (h : s.Bijection) (now : Int) {k : K}
    {r : cacheItem V} (hr : mapGet s.cache k = some r) : (s.touch now k r.Node).Bijection := by
  obtain ⟨n, hn, hnk, hni⟩ := h.node_of_row hr
  have hinj := @Bijection.id_inj _ _ _ s h
  obtain ⟨h1, h2, h3, h4, h5, h6⟩ := h
  refine ⟨?_, ?_, ?_, h4, ?_, ?_⟩
  · show ((s.ttlList.filter _ ++ [_]).map _).Nodup
    rw [List.map_append, List.nodup_append]
    refine ⟨h1.sublist ((List.filter_sublist _).map _), by simp, ?_⟩
    intro a ha hb
    obtain ⟨m, hm, rfl⟩ := List.mem_map.1 ha
    have hm' := List.mem_filter.1 hm
    simp at hb
    have := hinj hm'.1 hn (by rw [hb, hni])
    have hne : m.Value.Key ≠ k := by simpa using hm'.2
    exact hne (by rw [this, hnk])
  · intro m hm
    have : m ∈ s.ttlList.filter _ ++ [_] := hm
    rcases List.mem_append.1 this with hm | hm
    · exact h2 m (List.mem_of_mem_filter hm)
    · simp at hm; rw [hm]; show r.Node < s.nextId; rw [← hni]; exact h2 n hn
  · show ((s.ttlList.filter _ ++ [_]).map _).Nodup
    rw [List.map_append, List.nodup_append]
    refine ⟨h3.sublist ((List.filter_sublist _).map _), by simp, ?_⟩
    intro a ha hb
    obtain ⟨m, hm, rfl⟩ := List.mem_map.1 ha
    have hm' := List.mem_filter.1 hm
    simp at hb
    have hne : m.Value.Key ≠ k := by simpa using hm'.2
    exact hne hb
  · intro m hm
    have : m ∈ s.ttlList.filter _ ++ [_] := hm
    show (mapGet s.cache m.Value.Key).map _ = _
    rcases List.mem_append.1 this with hm | hm
    · exact h5 m (List.mem_of_mem_filter hm)
    · simp at hm; rw [hm]; simp [hr]
  · intro p hp
    show p.1 ∈ (s.ttlList.filter _ ++ [_]).map _
    obtain ⟨m, hm, hmk⟩ := mem_keys.1 (h6 p hp)
    rw [List.map_append, List.mem_append]
    by_cases hpk : p.1 = k
    · right; simp [hpk]
    · left
      refine List.mem_map.2 ⟨m, List.mem_filter.2 ⟨hm, ?_⟩, hmk⟩
      simpa [hmk] using hpk

theorem Bijection.Get [Inhabited V] {s : LRUCache K V} (h : s.Bijection) (now : Int) (k : K) :
    (s.Get now k).2.Bijection := by
  cases hr : mapGet (s.unsafeClear now).cache k with
  | none => rw [Get_eq_of_none hr]; exact h.unsafeClear now
  | some r => rw [Get_eq_of_some h hr]; exact (h.unsafeClear now).touch now hr

theorem Bijection.Remove {s : LRUCache K V} (h : s.Bijection) (now : Int) (k : K) :
    (s.Remove now k).2.Bijection := by
  cases hr : mapGet (s.unsafeClear now).cache k with
  | none => rw [Remove_eq_of_none hr]; exact h.unsafeClear now
  | some r => rw [Remove_eq_of_some h hr]; exact (h.unsafeClear now).dropKey k

theorem Bijection_New (limit ttl : Int) : (New K V limit ttl).Bijection := by
  simp [New, Bijection, keys]

end LRUCache

end OperationLemmas

section EntryLemmas

variable {K V : Type} [DecidableEq K]

namespace LRUCache

theorem Get_fst [Inhabited V] (s : LRUCache K V) (now : Int) (k : K) :
    (s.Get now k).1 =
      match mapGet (s.unsafeClear now).cache k with
      | none => (default, false)
      | some r => (r.Value, true) := by
  cases hr : mapGet (s.unsafeClear now).cache k with
  | none => rw [Get_eq_of_none hr]
  | some r => unfold Get; simp only [hr]

theorem Remove_fst (s : LRUCache K V) (now : Int) (k : K) :
    (s.Remove now k).1 = (mapGet (s.unsafeClear now).cache k).isSome := by
  cases hr : mapGet (s.unsafeClear now).cache k with
  | none => rw [Remove_eq_of_none hr]; rfl
  | some r => unfold Remove; simp only [hr, Option.isSome]

/-- A node that is not expired survives the sweep together with its row. -/
theorem Bijection.live_survives {s : LRUCache K V} (h : s.Bijection) {now : Int} {n : Element K}
    (hn : n ∈ s.ttlList) (hlive : n.Value.isExpired now = false) :
    n ∈ (s.unsafeClear now).ttlList ∧
      mapGet (s.unsafeClear now).cache n.Value.Key = mapGet s.cache n.Value.Key := by
  have hsplit := List.takeWhile_append_dropWhile (fun n => n.Value.isExpired now) s.ttlList
  have hmem : n ∈ s.ttlList.dropWhile (fun n => n.Value.isExpired now) := by
    rw [← hsplit] at hn
    rcases List.mem_append.1 hn with hn | hn
    · have := List.mem_takeWhile_imp hn
      rw [hlive] at this
      exact Bool.noConfusion this
    · exact hn
  rw [← unsafeClear_ttlList] at hmem
  exact ⟨hmem, mapGet_unsafeClear_of_mem h now hmem⟩

theorem length_entries (s : LRUCache K V) : s.entries.length = s.ttlList.length := by
  simp [entries]

theorem map_fst_entries (s : LRUCache K V) : s.entries.map (fun e => e.1) = s.keys := by
  simp [entries, keys]

theorem entries_dropKey (s : LRUCache K V) (k : K) :
    (s.dropKey k).entries = s.entries.filter (fun e => decide (e.1 ≠ k)) := by
  unfold entries
  rw [List.filter_map]
  show List.map _ (s.ttlList.filter _) = _
  apply List.map_congr_left
  intro n hn
  have hne : n.Value.Key ≠ k := by simpa using (List.mem_filter.1 hn).2
  rw [mapGet_dropKey, if_neg hne]

theorem entries_pushBack {s : LRUCache K V} (h : s.Bijection) (now : Int) {k : K} (v : V)
    (hk : mapGet s.cache k = none) :
    (s.pushBack now k v).entries = s.entries ++ [(k, now + s.ttl, some v)] := by
  have hnk := h.not_mem_keys hk
  unfold entries
  show List.map _ (s.ttlList ++ [_]) = _
  rw [List.map_append]
  congr 1
  · apply List.map_congr_left
    intro n hn
    have hne : n.Value.Key ≠ k := fun e => hnk (mem_keys.2 ⟨n, hn, e⟩)
    show (_, _, (mapGet (mapSet s.cache k _) n.Value.Key).map _) = _
    rw [mapGet_mapSet, if_neg hne]
  · show [(_, _, (mapGet (mapSet s.cache k _) k).map _)] = _
    rw [mapGet_mapSet]
    simp

theorem entries_touch (s : LRUCache K V) (now : Int) {k : K} {r : cacheItem V} (e : Nat)
    (hr : mapGet s.cache k = some r) :
    (s.touch now k e).entries =
      s.entries.filter (fun e => decide (e.1 ≠ k)) ++ [(k, now + s.ttl, some r.Value)] := by
  unfold entries
  show List.map _ (s.ttlList.filter _ ++ [_]) = _
  rw [List.map_append, List.filter_map]
  congr 1
  show [(_, _, (mapGet s.cache k).map _)] = _
  rw [hr]
  rfl

theorem entries_evictFront {s : LRUCache K V} (h : s.Bijection) :
    s.evictFront.entries =
      if s.limit ≤ (s.ttlList.length : Int) then s.entries.tail else s.entries := by
  unfold evictFront
  cases hh : s.ttlList.head? with
  | none =>
    have : s.ttlList = [] := by simpa using hh
    simp [entries, this]
  | some front =>
    by_cases hlen : s.limit ≤ ((s.ttlList.length : Nat) : Int)
    · simp only [hlen, if_true]
      rw [entries_dropKey]
      have hnd : (s.entries.map (fun e => e.1)).Nodup := by
        rw [map_fst_entries]; exact h.2.2.1
      cases hl : s.ttlList with
      | nil => rw [hl] at hh; simp at hh
      | cons a rest =>
        rw [hl] at hh
        have hfa : front = a := by simpa using hh.symm
        have he : s.entries = (a.Value.Key, a.Value.ExpiresAt,
            (mapGet s.cache a.Value.Key).map (fun r => r.Value)) ::
            rest.map (fun n => (n.Value.Key, n.Value.ExpiresAt,
              (mapGet s.cache n.Value.Key).map (fun r => r.Value))) := by
          simp [entries, hl]
        rw [he] at hnd ⊢
        rw [List.map_cons, List.nodup_cons] at hnd
        rw [hfa, List.filter_cons_of_neg (by simp), List.tail_cons, List.filter_eq_self]
        intro e hem
        have : e.1 ≠ a.Value.Key := fun e' => hnd.1 (by
          rw [← e']; exact List.mem_map_of_mem (fun e => e.1) hem)
        simpa using this
    · simp only [hlen, if_false]

end LRUCache

end EntryLemmas

section RunLemmas

variable {K V : Type} [DecidableEq K]

namespace LRUCache

theorem evictFront_ttl (s : LRUCache K V) : s.evictFront.ttl = s.ttl := by
  unfold evictFront
  cases s.ttlList.head? with
  | none => rfl
  | some front =>
    by_cases hlen : s.limit ≤ ((s.ttlList.length : Nat) : Int)
    · simp only [hlen, if_true]; rfl
    · simp only [hlen, if_false]

theorem evictFront_limit (s : LRUCache K V) : s.evictFront.limit = s.limit := by
  unfold evictFront
  cases s.ttlList.head? with
  | none => rfl
  | some front =>
    by_cases hlen : s.limit ≤ ((s.ttlList.length : Nat) : Int)
    · simp only [hlen, if_true]; rfl
    · simp only [hlen, if_false]

theorem evictFront_sublist (s : LRUCache K V) : s.evictFront.ttlList.Sublist s.ttlList := by
  unfold evictFront
  cases s.ttlList.head? with
  | none => exact List.Sublist.refl _
  | some front =>
    by_cases hlen : s.limit ≤ ((s.ttlList.length : Nat) : Int)
    · simp only [hlen, if_true]; exact List.filter_sublist _
    · simp only [hlen, if_false]; exact List.Sublist.refl _

theorem length_evictFront {s : LRUCache K V} (h : s.Bijection) :
    s.evictFront.ttlList.length =
      if s.limit ≤ (s.ttlList.length : Int) then s.ttlList.length - 1 else s.ttlList.length := by
  rw [← length_entries, entries_evictFront h]
  by_cases hlen : s.limit ≤ ((s.ttlList.length : Nat) : Int)
  · simp only [hlen, if_true, List.length_tail, length_entries]
  · simp only [hlen, if_false, length_entries]

theorem unsafeClear_sublist (s : LRUCache K V) (now : Int) :
    (s.unsafeClear now).ttlList.Sublist s.ttlList := by
  rw [unsafeClear_ttlList]
  exact List.dropWhile_sublist _

/-- The shape of one call on a state that satisfies the bijection: the call completes, keeps
the bijection and the configuration, and leaves a sublist of the old nodes followed by at
most one node, stamped for the key and the clock reading of the call. -/
theorem step_shape [Inhabited V] {s : LRUCache K V} (h : s.Bijection) (hl : 1 ≤ s.limit)
    (op : Op K V) :
    ∃ s1 L X, s.step op = some s1 ∧ s1.Bijection ∧ s1.limit = s.limit ∧ s1.ttl = s.ttl ∧
      s1.ttlList = L ++ X ∧ L.Sublist s.ttlList ∧
      (∀ x ∈ X, x.Value.Key = op.key ∧ x.Value.ExpiresAt = op.time + s.ttl) ∧
      (((s.ttlList.length : Nat) : Int) ≤ s.limit → ((s1.ttlList.length : Nat) : Int) ≤ s.limit) := by
  cases op with
  | push now k v =>
    have hp := Push_eq h hl now k v
    refine ⟨_, (((s.unsafeClear now).evictFront).dropKey k).ttlList,
      [{ id := (((s.unsafeClear now).evictFront).dropKey k).nextId,
         Value := { Key := k, ExpiresAt := now + s.ttl } }],
      hp, Bijection.Push h hl hp, ?_, ?_, ?_, ?_, ?_, ?_⟩
    · show ((s.unsafeClear now).evictFront).limit = s.limit
      rw [evictFront_limit]; rfl
    · show ((s.unsafeClear now).evictFront).ttl = s.ttl
      rw [evictFront_ttl]; rfl
    · have httl : (((s.unsafeClear now).evictFront).dropKey k).ttl = s.ttl := by
        show ((s.unsafeClear now).evictFront).ttl = s.ttl
        rw [evictFront_ttl]; rfl
      simp only [pushBack, httl]
    · exact ((List.filter_sublist _).trans (evictFront_sublist _)).trans
        (unsafeClear_sublist s now)
    · intro x hx
      simp at hx
      rw [hx]
      exact ⟨rfl, rfl⟩
    · intro hlen
      show (((((s.unsafeClear now).evictFront).dropKey k).ttlList ++ [_]).length : Int) ≤ s.limit
      have h1 : (((s.unsafeClear now).evictFront).dropKey k).ttlList.length ≤
          (s.unsafeClear now).evictFront.ttlList.length := (List.filter_sublist _).length_le
      have h2 := length_evictFront (h.unsafeClear now)
      have h3 : (s.unsafeClear now).ttlList.length ≤ s.ttlList.length :=
        (unsafeClear_sublist s now).length_le
      have h4 : (s.unsafeClear now).limit = s.limit := rfl
      rw [h4] at h2
      rw [List.length_append, List.length_singleton]
      by_cases hc : s.limit ≤ (((s.unsafeClear now).ttlList.length : Nat) : Int)
      · rw [if_pos hc] at h2
        push_cast
        omega
      · rw [if_neg hc] at h2
        push_cast
        omega
  | get now k =>
    cases hr : mapGet (s.unsafeClear now).cache k with
    | none =>
      refine ⟨s.unsafeClear now, (s.unsafeClear now).ttlList, [], ?_, h.unsafeClear now, rfl, rfl,
        by simp, unsafeClear_sublist s now, by simp, ?_⟩
      · show some (s.Get now k).2 = _
        rw [Get_eq_of_none hr]
      · intro hlen
        have h3 : (s.unsafeClear now).ttlList.length ≤ s.ttlList.length :=
          (unsafeClear_sublist s now).length_le
        omega
    | some r =>
      refine ⟨(s.unsafeClear now).touch now k r.Node,
        (s.unsafeClear now).ttlList.filter (fun n => decide (n.Value.Key ≠ k)),
        [{ id := r.Node, Value := { Key := k, ExpiresAt := now + s.ttl } }],
        ?_, (h.unsafeClear now).touch now hr, rfl, rfl, rfl,
        (List.filter_sublist _).trans (unsafeClear_sublist s now), ?_, ?_⟩
      · show some (s.Get now k).2 = _
        rw [Get_eq_of_some h hr]
      · intro x hx
        simp at hx
        rw [hx]
        exact ⟨rfl, rfl⟩
      · intro hlen
        obtain ⟨n, hn, hnk, _⟩ := (h.unsafeClear now).node_of_row hr
        have hlt : ((s.unsafeClear now).ttlList.filter
            (fun n => decide (n.Value.Key ≠ k))).length < (s.unsafeClear now).ttlList.length :=
          List.length_filter_lt_length_iff_exists.2 ⟨n, hn, by simp [hnk]⟩
        have h3 : (s.unsafeClear now).ttlList.length ≤ s.ttlList.length :=
          (unsafeClear_sublist s now).length_le
        show ((((s.unsafeClear now).ttlList.filter _ ++ [_]).length : Nat) : Int) ≤ s.limit
        rw [List.length_append, List.length_singleton]
        omega
  | remove now k =>
    cases hr : mapGet (s.unsafeClear now).cache k with
    | none =>
      refine ⟨s.unsafeClear now, (s.unsafeClear now).ttlList, [], ?_, h.unsafeClear now, rfl, rfl,
        by simp, unsafeClear_sublist s now, by simp, ?_⟩
      · show some (s.Remove now k).2 = _
        rw [Remove_eq_of_none hr]
      · intro hlen
        have h3 : (s.unsafeClear now).ttlList.length ≤ s.ttlList.length :=
          (unsafeClear_sublist s now).length_le
        omega
    | some r =>
      refine ⟨(s.unsafeClear now).dropKey k, ((s.unsafeClear now).dropKey k).ttlList, [], ?_,
        (h.unsafeClear now).dropKey k, rfl, rfl, by simp,
        (List.filter_sublist _).trans (unsafeClear_sublist s now), by simp, ?_⟩
      · show some (s.Remove now k).2 = _
        rw [Remove_eq_of_some h hr]
      · intro hlen
        have h1 : ((s.unsafeClear now).dropKey k).ttlList.length ≤
            (s.unsafeClear now).ttlList.length := (List.filter_sublist _).length_le
        have h3 : (s.unsafeClear now).ttlList.length ≤ s.ttlList.length :=
          (unsafeClear_sublist s now).length_le
        omega

theorem run_append [Inhabited V] (s : LRUCache K V) (a b : List (Op K V)) :
    s.run (a ++ b) = (s.run a).bind (fun s1 => s1.run b) := by
  induction a generalizing s with
  | nil => rfl
  | cons op ops ih =>
    simp only [List.cons_append, run]
    cases s.step op with
    | none => rfl
    | some s1 => exact ih s1

/-- A run from a state that satisfies the bijection, with `limit ≥ 1`, completes; it keeps
the bijection, the configuration and the capacity bound. -/
theorem run_invariant [Inhabited V] {s : LRUCache K V} (h : s.Bijection) (hl : 1 ≤ s.limit)
    (hlen : ((s.ttlList.length : Nat) : Int) ≤ s.limit) (ops : List (Op K V)) :
    ∃ s1, s.run ops = some s1 ∧ s1.Bijection ∧ s1.limit = s.limit ∧ s1.ttl = s.ttl ∧
      ((s1.ttlList.length : Nat) : Int) ≤ s.limit := by
  induction ops generalizing s with
  | nil => exact ⟨s, rfl, h, rfl, rfl, hlen⟩
  | cons op ops ih =>
    obtain ⟨s1, L, X, hs, hb, hlim, httl, _, _, _, hle⟩ := step_shape h hl op
    have hl1 : 1 ≤ s1.limit := by rw [hlim]; exact hl
    obtain ⟨s2, hr, hb2, hlim2, httl2, hle2⟩ := ih hb hl1 (by rw [hlim]; exact hle hlen)
    refine ⟨s2, ?_, hb2, by rw [hlim2, hlim], by rw [httl2, httl], by rw [← hlim]; exact hle2⟩
    simp only [run, hs]
    exact hr

end LRUCache

end RunLemmas


section PushSequences

variable {K V : Type} [DecidableEq K]

namespace LRUCache

theorem Bijection.mapGet_eq_none {s : LRUCache K V} (h : s.Bijection) {k : K}
    (hk : k ∉ s.keys) : mapGet s.cache k = none := by
  cases hr : mapGet s.cache k with
  | none => rfl
  | some r => exact absurd (h.2.2.2.2.2 _ (mapGet_some_mem hr)) hk

/-- The value the table holds for a key listed in `entries`. -/
theorem mapGet_of_mem_entries {s : LRUCache K V} {k : K} {x : Int} {v : V}
    (h : (k, x, some v) ∈ s.entries) : ∃ r, mapGet s.cache k = some r ∧ r.Value = v := by
  obtain ⟨n, hn, hne⟩ := List.mem_map.1 h
  simp only [Prod.mk.injEq] at hne
  obtain ⟨hk, _, hv⟩ := hne
  rw [hk] at hv
  cases hr : mapGet s.cache k with
  | none => rw [hr] at hv; simp at hv
  | some r => rw [hr] at hv; exact ⟨r, rfl, by simpa using hv⟩

/-- Pushing pairwise distinct keys, none of them expiring on the way, into a new cache of
capacity `n ≥ 1` leaves the last `n` pushes, in push order. -/
theorem pushes_entries [Inhabited V] (n : Nat) (ttl : Int) (hn : 1 ≤ n)
    (ps : List (Int × K × V))
    (hd : (ps.map (fun p => p.2.1)).Nodup)
    (hne : ps.Pairwise (fun a b => b.1 ≤ a.1 + ttl)) :
    ∃ s, (New K V n ttl).run (ps.map (fun p => Op.push p.1 p.2.1 p.2.2)) = some s ∧
      s.Bijection ∧ s.limit = n ∧ s.ttl = ttl ∧
      s.entries = (ps.drop (ps.length - n)).map (fun p => (p.2.1, p.1 + ttl, some p.2.2)) := by
  induction ps using List.reverseRecOn with
  | nil => exact ⟨New K V n ttl, rfl, Bijection_New _ _, rfl, rfl, by simp [New, entries]⟩
  | append_singleton ps p ih =>
    rw [List.map_append, List.nodup_append] at hd
    rw [List.pairwise_append] at hne
    obtain ⟨s, hr, hb, hlim, httl, hent⟩ := ih hd.1 hne.1
    have hk : p.2.1 ∉ ps.map (fun p => p.2.1) := fun hx => hd.2.2 hx (by simp)
    have ht : ∀ a ∈ ps, p.1 ≤ a.1 + ttl := fun a ha => hne.2.2 a ha p (by simp)
    have hl : 1 ≤ s.limit := by rw [hlim]; exact_mod_cast hn
    have hsweep : s.unsafeClear p.1 = s := by
      apply unsafeClear_of_not_expired
      intro e he
      have hmem : e ∈ s.ttlList := List.mem_of_mem_head? he
      have hin : (e.Value.Key, e.Value.ExpiresAt,
          (mapGet s.cache e.Value.Key).map (fun r => r.Value)) ∈ s.entries :=
        List.mem_map.2 ⟨e, hmem, rfl⟩
      rw [hent] at hin
      obtain ⟨a, ha, hae⟩ := List.mem_map.1 hin
      simp only [Prod.mk.injEq] at hae
      have := ht a (List.mem_of_mem_drop ha)
      simp only [listItem.isExpired, ← hae.2.1, decide_eq_false_iff_not, not_lt]
      exact this
    have hpush := Push_eq hb hl p.1 p.2.1 p.2.2
    rw [hsweep] at hpush
    have hnone : mapGet (s.evictFront.dropKey p.2.1).cache p.2.1 = none := by
      rw [mapGet_dropKey]; simp
    refine ⟨_, ?_, Bijection.Push hb hl hpush, ?_, ?_, ?_⟩
    · rw [List.map_append, run_append, hr]
      simp only [List.map_cons, List.map_nil, Option.some_bind, run]
      rw [show s.step (Op.push p.1 p.2.1 p.2.2) = s.Push p.1 p.2.1 p.2.2 from rfl, hpush]
    · show s.evictFront.limit = _
      rw [evictFront_limit, hlim]
    · show s.evictFront.ttl = _
      rw [evictFront_ttl, httl]
    · rw [entries_pushBack (hb.evictFront.dropKey _) _ _ hnone, entries_dropKey,
        entries_evictFront hb, ← length_entries, hent, hlim]
      have httl' : (s.evictFront.dropKey p.2.1).ttl = ttl := by
        show s.evictFront.ttl = _
        rw [evictFront_ttl, httl]
      rw [httl']
      have hfilter : ∀ l : List (Int × K × V), (∀ a ∈ l, a ∈ ps) →
          (l.map (fun p => (p.2.1, p.1 + ttl, some p.2.2))).filter
            (fun e => decide (e.1 ≠ p.2.1)) =
          l.map (fun p => (p.2.1, p.1 + ttl, some p.2.2)) := by
        intro l hsub
        rw [List.filter_eq_self]
        intro e he
        obtain ⟨a, ha, rfl⟩ := List.mem_map.1 he
        have : a.2.1 ≠ p.2.1 := fun e' => hk (by
          rw [← e']; exact List.mem_map_of_mem (fun p => p.2.1) (hsub a ha))
        simpa using this
      rw [List.length_map, List.length_drop, List.length_append, List.length_singleton]
      by_cases hc : n ≤ ps.length
      · have h1 : ((n : Nat) : Int) ≤ ((ps.length - (ps.length - n) : Nat) : Int) := by
          have : ps.length - (ps.length - n) = n := by omega
          rw [this]
        rw [if_pos h1, ← List.map_tail, List.tail_drop, hfilter _ (fun a ha => List.mem_of_mem_drop ha)]
        have h2 : ps.length + 1 - n = ps.length - n + 1 := by omega
        rw [h2, List.drop_append_of_le_length (by omega), List.map_append]
        rfl
      · have h1 : ¬ ((n : Nat) : Int) ≤ ((ps.length - (ps.length - n) : Nat) : Int) := by
          have : ps.length - (ps.length - n) = ps.length := by omega
          rw [this]
          omega
        have h2 : ps.length + 1 - n = 0 := by omega
        have h3 : ps.length - n = 0 := by omega
        rw [if_neg h1, h2, h3, List.drop_zero, List.drop_zero, hfilter _ (fun a ha => ha),
          List.map_append]
        rfl

end LRUCache

end PushSequences


section LookupLemmas

variable {K V : Type} [DecidableEq K]

namespace LRUCache

theorem Bijection.mapGet_ne_none_iff {s : LRUCache K V} (h : s.Bijection) (k : K) :
    mapGet s.cache k ≠ none ↔ k ∈ s.keys := by
  constructor
  · intro hne
    by_contra hk
    exact hne (h.mapGet_eq_none hk)
  · intro hk hnone
    exact h.not_mem_keys hnone hk

/-- The sweep never adds a row. -/
theorem mapGet_unsafeClear_eq_none {s : LRUCache K V} {k : K} (h : mapGet s.cache k = none)
    (now : Int) : mapGet (s.unsafeClear now).cache k = none := by
  rw [mapGet_unsafeClear, h]
  simp

/-- A key without a row is reported absent by `Get` at any time. -/
theorem Get_fst_of_none [Inhabited V] {s : LRUCache K V} {k : K} (h : mapGet s.cache k = none)
    (now : Int) : (s.Get now k).1 = (default, false) := by
  rw [Get_fst, mapGet_unsafeClear_eq_none h now]

/-- A key whose node is not expired is found by `Get`, with the value of its row. -/
theorem Bijection.Get_fst_of_live [Inhabited V] {s : LRUCache K V} (h : s.Bijection) {now : Int}
    {n : Element K} {r : cacheItem V} (hn : n ∈ s.ttlList)
    (hlive : n.Value.isExpired now = false) (hr : mapGet s.cache n.Value.Key = some r) :
    (s.Get now n.Value.Key).1 = (r.Value, true) := by
  rw [Get_fst, (h.live_survives hn hlive).2, hr]

end LRUCache

end LookupLemmas


section ExpiryLemmas

variable {K V : Type} [DecidableEq K]

theorem expiryGuard_of_forall (k : K) (T : Int) (l : List (Element K))
    (h : ∀ a ∈ l, a.Value.ExpiresAt ≤ T) : expiryGuard k T l := by
  induction l with
  | nil => trivial
  | cons a rest ih =>
    exact ⟨fun _ => h a (by simp), ih (fun b hb => h b (List.mem_cons_of_mem _ hb))⟩

theorem expiryGuard_of_not_mem (k : K) (T : Int) (l : List (Element K))
    (h : k ∉ l.map (fun n => n.Value.Key)) : expiryGuard k T l := by
  induction l with
  | nil => trivial
  | cons a rest ih =>
    refine ⟨fun hk => absurd hk h, ih (fun hk => h ?_)⟩
    rw [List.map_cons]
    exact List.mem_cons_of_mem _ hk

theorem expiryGuard_sublist (k : K) (T : Int) {l1 l2 : List (Element K)} (hs : l1.Sublist l2)
    (h : expiryGuard k T l2) : expiryGuard k T l1 := by
  induction hs with
  | slnil => trivial
  | cons a _ ih => exact ih h.2
  | cons₂ a hs' ih =>
    refine ⟨fun hk => h.1 ?_, ih h.2⟩
    exact (((hs'.cons₂ a).map (fun n => n.Value.Key)).subset) hk

theorem expiryGuard_append (k : K) (T : Int) (l X : List (Element K))
    (h : expiryGuard k T l) (hX : ∀ x ∈ X, x.Value.Key ≠ k) : expiryGuard k T (l ++ X) := by
  induction l with
  | nil =>
    apply expiryGuard_of_not_mem
    intro hk
    obtain ⟨x, hx, hxk⟩ := List.mem_map.1 hk
    exact hX x hx hxk
  | cons a rest ih =>
    refine ⟨fun hk => h.1 ?_, ih h.2⟩
    have hk' : k ∈ ((a :: rest) ++ X).map (fun n => n.Value.Key) := hk
    rw [List.map_append, List.mem_append] at hk'
    rcases hk' with hk | hk
    · exact hk
    · obtain ⟨x, hx, hxk⟩ := List.mem_map.1 hk
      exact absurd hxk (hX x hx)

/-- Past the guard time the sweep leaves no node of key `k`. -/
theorem expiryGuard_dropWhile (k : K) (T now : Int) (hT : T < now) (l : List (Element K))
    (h : expiryGuard k T l) :
    k ∉ (l.dropWhile (fun n => n.Value.isExpired now)).map (fun n => n.Value.Key) := by
  induction l with
  | nil => simp
  | cons a rest ih =>
    by_cases ha : a.Value.isExpired now = true
    · simp only [List.dropWhile, ha]
      exact ih h.2
    · simp only [List.dropWhile, ha]
      intro hk
      have := h.1 hk
      simp only [listItem.isExpired, decide_eq_true_eq, not_lt] at ha
      omega

namespace LRUCache

/-- Induction along a run: a property kept by every call of the run holds at its end. -/
theorem run_induction [Inhabited V] (P : LRUCache K V → Prop) (ops : List (Op K V))
    (hstep : ∀ s op s1, op ∈ ops → s.Bijection → 1 ≤ s.limit → P s → s.step op = some s1 → P s1)
    {s : LRUCache K V} (h : s.Bijection) (hl : 1 ≤ s.limit) (hP : P s) :
    ∃ s1, s.run ops = some s1 ∧ s1.Bijection ∧ s1.limit = s.limit ∧ s1.ttl = s.ttl ∧ P s1 := by
  induction ops generalizing s with
  | nil => exact ⟨s, rfl, h, rfl, rfl, hP⟩
  | cons op ops ih =>
    obtain ⟨s1, L, X, hs, hb, hlim, httl, _, _, _, _⟩ := step_shape h hl op
    have hP1 := hstep s op s1 (by simp) h hl hP hs
    obtain ⟨s2, hr, hb2, hlim2, httl2, hP2⟩ :=
      ih (fun s op s1 hop => hstep s op s1 (List.mem_cons_of_mem _ hop)) hb
        (by rw [hlim]; exact hl) hP1
    refine ⟨s2, ?_, hb2, by rw [hlim2, hlim], by rw [httl2, httl], hP2⟩
    simp only [run, hs]
    exact hr

/-- A call at a clock reading of at most `t` stamps no node later than `t + ttl`. -/
theorem step_clockBound [Inhabited V] {s s1 : LRUCache K V} (h : s.Bijection) (hl : 1 ≤ s.limit)
    {op : Op K V} {t : Int} (hop : op.time ≤ t)
    (hP : ∀ a ∈ s.ttlList, a.Value.ExpiresAt ≤ t + s.ttl) (hs : s.step op = some s1) :
    ∀ a ∈ s1.ttlList, a.Value.ExpiresAt ≤ t + s1.ttl := by
  obtain ⟨s1', L, X, hs', _, _, httl, hlist, hsub, hX, _⟩ := step_shape h hl op
  rw [hs] at hs'
  have heq : s1 = s1' := Option.some.inj hs'
  subst heq
  intro a ha
  rw [hlist] at ha
  rw [httl]
  rcases List.mem_append.1 ha with ha | ha
  · exact hP a (hsub.subset ha)
  · rw [(hX a ha).2]
    omega

/-- A call on another key keeps the guard on the nodes in front of key `k`. -/
theorem step_expiryGuard [Inhabited V] {s s1 : LRUCache K V} (h : s.Bijection)
    (hl : 1 ≤ s.limit) {op : Op K V} {k : K} {T : Int} (hop : op.key ≠ k)
    (hP : expiryGuard k T s.ttlList) (hs : s.step op = some s1) :
    expiryGuard k T s1.ttlList := by
  obtain ⟨s1', L, X, hs', _, _, _, hlist, hsub, hX, _⟩ := step_shape h hl op
  rw [hs] at hs'
  have heq : s1 = s1' := Option.some.inj hs'
  subst heq
  rw [hlist]
  apply expiryGuard_append k T L X (expiryGuard_sublist k T hsub hP)
  intro x hx
  rw [(hX x hx).1]
  exact hop

/-- Past the guard time, key `k` has no row after the sweep. -/
theorem Bijection.swept_of_expiryGuard {s : LRUCache K V} (h : s.Bijection) {k : K}
    {T now : Int} (hT : T < now) (hg : expiryGuard k T s.ttlList) :
    mapGet (s.unsafeClear now).cache k = none := by
  apply (h.unsafeClear now).mapGet_eq_none
  unfold keys
  rw [unsafeClear_ttlList]
  exact expiryGuard_dropWhile k T now hT s.ttlList hg

end LRUCache

end ExpiryLemmas


section ReplaceRemoveLemmas

variable {K V : Type} [DecidableEq K]

theorem length_filter_key_of_nodup (k : K) (l : List (Element K))
    (hnd : (l.map (fun n => n.Value.Key)).Nodup) (hk : k ∈ l.map (fun n => n.Value.Key)) :
    (l.filter (fun n => decide (n.Value.Key ≠ k))).length + 1 = l.length := by
  induction l with
  | nil => simp at hk
  | cons a rest ih =>
    rw [List.map_cons, List.nodup_cons] at hnd
    by_cases ha : a.Value.Key = k
    · rw [List.filter_cons_of_neg (by simp [ha])]
      have : rest.filter (fun n => decide (n.Value.Key ≠ k)) = rest := by
        rw [List.filter_eq_self]
        intro n hn
        have : n.Value.Key ≠ k := fun e => hnd.1 (by
          rw [ha, ← e]; exact List.mem_map_of_mem (fun n => n.Value.Key) hn)
        simpa using this
      rw [this, List.length_cons]
    · rw [List.filter_cons_of_pos (by simp [ha]), List.length_cons, List.length_cons]
      have hk' : k ∈ rest.map (fun n => n.Value.Key) := by
        rw [List.map_cons, List.mem_cons] at hk
        rcases hk with hk | hk
        · exact absurd hk.symm ha
        · exact hk
      rw [ih hnd.2 hk']

theorem filter_not_dropWhile {α : Type} (p : α → Bool) (l : List α) :
    (l.dropWhile p).filter (fun x => !p x) = l.filter (fun x => !p x) := by
  induction l with
  | nil => rfl
  | cons a rest ih =>
    by_cases ha : p a = true
    · simp only [List.dropWhile, ha, List.filter, Bool.not_true]
      exact ih
    · simp only [List.dropWhile, ha]

namespace LRUCache

theorem evictFront_of_lt {s : LRUCache K V} (h : ¬ s.limit ≤ ((s.ttlList.length : Nat) : Int)) :
    s.evictFront = s := by
  unfold evictFront
  cases s.ttlList.head? with
  | none => rfl
  | some front => simp only [h, if_false]

/-- After a `Push` of key `k` the key is found, with the pushed value, until it expires. -/
theorem Bijection.Get_after_pushBack [Inhabited V] {s : LRUCache K V} (h : s.Bijection)
    {k : K} (hk : mapGet s.cache k = none) (v : V) {t t' : Int} (ht : t' ≤ t + s.ttl) :
    ((s.pushBack t k v).Get t' k).1 = (v, true) := by
  have hb := h.pushBack t v hk
  have hmem : ({ id := s.nextId, Value := { Key := k, ExpiresAt := t + s.ttl } } : Element K) ∈
      (s.pushBack t k v).ttlList := by
    show _ ∈ s.ttlList ++ [_]
    simp
  have hlive : ({ id := s.nextId, Value := { Key := k, ExpiresAt := t + s.ttl } } :
      Element K).Value.isExpired t' = false := by
    simpa [listItem.isExpired] using ht
  have hrow : mapGet (s.pushBack t k v).cache k = some { Value := v, Node := s.nextId } := by
    show mapGet (mapSet s.cache k _) k = _
    rw [mapGet_mapSet, if_pos rfl]
  exact hb.Get_fst_of_live hmem hlive hrow

end LRUCache

end ReplaceRemoveLemmas


section LenLemmas

variable {K V : Type} [DecidableEq K]

namespace LRUCache

/-- Under the bijection the table has as many rows as the list has nodes. -/
theorem Bijection.length_cache {s : LRUCache K V} (h : s.Bijection) :
    s.cache.length = s.ttlList.length := by
  have hperm : (s.cache.map Prod.fst).Perm s.keys := by
    rw [List.perm_ext_iff_of_nodup h.2.2.2.1 h.2.2.1]
    intro k
    constructor
    · intro hk
      obtain ⟨p, hp, rfl⟩ := List.mem_map.1 hk
      exact h.2.2.2.2.2 p hp
    · intro hk
      obtain ⟨n, hn, rfl⟩ := mem_keys.1 hk
      obtain ⟨r, hr, _⟩ := h.row_of_node hn
      exact List.mem_map.2 ⟨_, mapGet_some_mem hr, rfl⟩
  have := hperm.length_eq
  simpa [keys] using this

/-- The sequential `Get` is its three critical sections run back to back. -/
theorem Get_eq_phases [Inhabited V] (s : LRUCache K V) (now : Int) (k : K) :
    s.Get now k =
      match GetCheck (s.unsafeClear now) k with
      | none => ((default, false), s.unsafeClear now)
      | some v => GetAct (s.unsafeClear now) now k v := rfl

/-- The sequential `Remove` is its three critical sections run back to back. -/
theorem Remove_eq_phases (s : LRUCache K V) (now : Int) (k : K) :
    s.Remove now k =
      match RemoveCheck (s.unsafeClear now) k with
      | none => (false, s.unsafeClear now)
      | some elem => RemoveAct (s.unsafeClear now) now k elem := rfl

end LRUCache

end LenLemmas


section OrderLemmas

variable {K V : Type} [DecidableEq K]

theorem not_expired_of_ordered {now : Int} {a : Element K} {rest : List (Element K)}
    (ho : expiryOrdered (a :: rest)) (ha : a.Value.isExpired now = false) :
    ∀ b ∈ rest, b.Value.isExpired now = false := by
  intro b hb
  have hab := (List.pairwise_cons.1 ho).1 b hb
  simp only [listItem.isExpired, decide_eq_false_iff_not, not_lt] at ha ⊢
  omega

/-- On an ordered list the sweep drops exactly the expired nodes. -/
theorem dropWhile_eq_filter_of_ordered (now : Int) (l : List (Element K))
    (ho : expiryOrdered l) :
    l.dropWhile (fun n => n.Value.isExpired now) =
      l.filter (fun n => !n.Value.isExpired now) := by
  induction l with
  | nil => rfl
  | cons a rest ih =>
    by_cases ha : a.Value.isExpired now = true
    · simp only [List.dropWhile, ha, List.filter, Bool.not_true]
      exact ih (List.pairwise_cons.1 ho).2
    · have ha' : a.Value.isExpired now = false := by simpa using ha
      simp only [List.dropWhile, ha', List.filter, Bool.not_false]
      congr 1
      symm
      rw [List.filter_eq_self]
      intro b hb
      rw [not_expired_of_ordered ho ha' b hb]
      rfl

theorem takeWhile_eq_filter_of_ordered (now : Int) (l : List (Element K))
    (ho : expiryOrdered l) :
    l.takeWhile (fun n => n.Value.isExpired now) =
      l.filter (fun n => n.Value.isExpired now) := by
  induction l with
  | nil => rfl
  | cons a rest ih =>
    by_cases ha : a.Value.isExpired now = true
    · simp only [List.takeWhile, ha, List.filter]
      rw [ih (List.pairwise_cons.1 ho).2]
    · have ha' : a.Value.isExpired now = false := by simpa using ha
      simp only [List.takeWhile, ha', List.filter]
      symm
      rw [List.filter_eq_nil_iff]
      intro b hb
      rw [not_expired_of_ordered ho ha' b hb]
      simp

namespace LRUCache

/-- Along a run at non-decreasing clock readings the ordering list stays ordered by
expiration; `T` bounds the clock readings of the calls made so far. -/
theorem run_expiryOrdered [Inhabited V] (ops : List (Op K V)) {s : LRUCache K V} (T : Int)
    (h : s.Bijection) (hl : 1 ≤ s.limit) (ho : expiryOrdered s.ttlList)
    (hbound : ∀ a ∈ s.ttlList, a.Value.ExpiresAt ≤ T + s.ttl)
    (hT : ∀ op ∈ ops, T ≤ op.time)
    (hclock : (ops.map Op.time).Pairwise (fun a b => a ≤ b)) :
    ∃ s1, s.run ops = some s1 ∧ s1.Bijection ∧ expiryOrdered s1.ttlList := by
  induction ops generalizing s T with
  | nil => exact ⟨s, rfl, h, ho⟩
  | cons op ops ih =>
    obtain ⟨s1, L, X, hs, hb, hlim, httl, hlist, hsub, hX, _⟩ := step_shape h hl op
    have hTop : T ≤ op.time := hT op (by simp)
    rw [List.map_cons, List.pairwise_cons] at hclock
    have ho1 : expiryOrdered s1.ttlList := by
      unfold expiryOrdered
      rw [hlist, List.pairwise_append]
      refine ⟨List.Pairwise.sublist hsub ho, ?_, ?_⟩
      · rw [List.pairwise_iff_forall_sublist]
        intro a b hab
        have ha := hX a (hab.subset (by simp))
        have hb' := hX b (hab.subset (by simp))
        rw [ha.2, hb'.2]
      · intro a ha b hb'
        have h1 := hbound a (hsub.subset ha)
        rw [(hX b hb').2]
        omega
    have hbound1 : ∀ a ∈ s1.ttlList, a.Value.ExpiresAt ≤ op.time + s1.ttl := by
      intro a ha
      rw [hlist] at ha
      rw [httl]
      rcases List.mem_append.1 ha with ha | ha
      · have := hbound a (hsub.subset ha)
        omega
      · rw [(hX a ha).2]
    obtain ⟨s2, hr, hb2, ho2⟩ := ih op.time hb (by rw [hlim]; exact hl) ho1 hbound1
      (fun op' hop' => hclock.1 op'.time (List.mem_map_of_mem Op.time hop')) hclock.2
    refine ⟨s2, ?_, hb2, ho2⟩
    simp only [run, hs]
    exact hr

end LRUCache

end OrderLemmas


section FrameLemmas

variable {K V : Type} [DecidableEq K]

namespace LRUCache

/-- On an ordered list the sweep keeps exactly the entries that are not expired. -/
theorem entries_unsafeClear_of_ordered {s : LRUCache K V} (hb : s.Bijection)
    (ho : expiryOrdered s.ttlList) (now : Int) :
    (s.unsafeClear now).entries = s.entries.filter (fun e => decide (now ≤ e.2.1)) := by
  have hlist : (s.unsafeClear now).ttlList =
      s.ttlList.filter (fun e => decide (now ≤ e.Value.ExpiresAt)) := by
    rw [unsafeClear_ttlList, dropWhile_eq_filter_of_ordered now _ ho]
    apply List.filter_congr
    intro e _
    by_cases h : e.Value.ExpiresAt < now
    · simp [listItem.isExpired, h, not_le.2 h]
    · simp [listItem.isExpired, h, not_lt.1 h]
  unfold entries
  rw [hlist, List.filter_map]
  apply List.map_congr_left
  intro e he
  rw [← hlist] at he
  rw [mapGet_unsafeClear_of_mem hb now he]

/-- The eviction step on a full list drops the key of the front node. -/
theorem evictFront_of_full {s : LRUCache K V} {front : Element K}
    (hfront : s.ttlList.head? = some front)
    (hfull : s.limit ≤ ((s.ttlList.length : Nat) : Int)) :
    s.evictFront = s.dropKey front.Value.Key := by
  unfold evictFront
  rw [hfront]
  simp only [hfull, if_true]

theorem length_dropKey {s : LRUCache K V} (hb : s.Bijection) {k : K} (hk : k ∈ s.keys) :
    (s.dropKey k).ttlList.length + 1 = s.ttlList.length :=
  length_filter_key_of_nodup k s.ttlList hb.2.2.1 hk

theorem mem_keys_dropKey {s : LRUCache K V} {k k' : K} :
    k' ∈ (s.dropKey k).keys ↔ k' ∈ s.keys ∧ k' ≠ k := by
  simp only [mem_keys, dropKey, List.mem_filter]
  constructor
  · rintro ⟨n, ⟨hn, hne⟩, rfl⟩
    exact ⟨⟨n, hn, rfl⟩, by simpa using hne⟩
  · rintro ⟨⟨n, hn, rfl⟩, hne⟩
    exact ⟨n, ⟨hn, by simpa using hne⟩, rfl⟩

end LRUCache

end FrameLemmas


section DegenerateLemmas

variable {K V : Type} [DecidableEq K]

namespace LRUCache

/-- With `limit ≤ 0` an empty cache stays empty: `Push` does not complete and the other calls
find nothing. -/
theorem run_of_limit_le_zero [Inhabited V] (ops : List (Op K V)) {s s1 : LRUCache K V}
    (hl : s.limit ≤ 0) (hlist : s.ttlList = []) (hcache : s.cache = [])
    (hrun : s.run ops = some s1) : s1.ttlList = [] := by
  induction ops generalizing s with
  | nil =>
    simp only [run, Option.some.injEq] at hrun
    rw [← hrun]
    exact hlist
  | cons op ops ih =>
    have hsweep : ∀ now, s.unsafeClear now = s := by
      intro now
      apply unsafeClear_of_not_expired
      intro e he
      rw [hlist] at he
      simp at he
    cases op with
    | push now k v =>
      have : s.Push now k v = none := by
        simp [Push, hsweep, evict, hlist, hl]
      simp [run, step, this] at hrun
    | get now k =>
      have hg : s.Get now k = ((default, false), s) := by
        rw [Get_eq_of_none (by rw [hsweep, hcache]; rfl), hsweep]
      simp only [run, step, hg] at hrun
      exact ih hl hlist hcache hrun
    | remove now k =>
      have hg : s.Remove now k = (false, s) := by
        rw [Remove_eq_of_none (by rw [hsweep, hcache]; rfl), hsweep]
      simp only [run, step, hg] at hrun
      exact ih hl hlist hcache hrun

end LRUCache

end DegenerateLemmas


section Claims

variable {K V : Type} [DecidableEq K]

open LRUCache

/-- C1. Push then Get round trip: in a state that satisfies the list/table bijection,
with `limit ≥ 1`, `Push(k, v)` at time `t` completes and a `Get(k)` that follows at a time
`t'` with `t ≤ t' ≤ t + ttl` returns `(v, true)`. -/
theorem push_get_round_trip [Inhabited V] (s : LRUCache K V) (k : K) (v : V) (t t' : Int)
    (hb : s.Bijection) (hl : 1 ≤ s.limit) (h1 : t ≤ t') (h2 : t' ≤ t + s.ttl) :
    ∃ s1, s.Push t k v = some s1 ∧ (s1.Get t' k).1 = (v, true) := by
  refine ⟨_, Push_eq hb hl t k v, ?_⟩
  have hb1 : ((((s.unsafeClear t).evictFront).dropKey k).pushBack t k v).Bijection :=
    Bijection.Push hb hl (Push_eq hb hl t k v)
  set s3 := ((s.unsafeClear t).evictFront).dropKey k with hs3
  have hmem : (⟨s3.nextId, ⟨k, t + s3.ttl⟩⟩ : Element K) ∈ (s3.pushBack t k v).ttlList := by
    show _ ∈ s3.ttlList ++ [_]
    simp
  have httl : s3.ttl = s.ttl := by
    have : (s.unsafeClear t).evictFront.ttl = s.ttl := by
      unfold evictFront
      cases (s.unsafeClear t).ttlList.head? with
      | none => rfl
      | some front =>
        by_cases hlen : (s.unsafeClear t).limit ≤ (((s.unsafeClear t).ttlList.length : Nat) : Int)
        · simp only [hlen, if_true]; rfl
        · simp only [hlen, if_false]; rfl
    exact this
  have hlive : (⟨s3.nextId, ⟨k, t + s3.ttl⟩⟩ : Element K).Value.isExpired t' = false := by
    simp only [listItem.isExpired, httl]
    simpa using h2
  have hrow := (hb1.live_survives hmem hlive).2
  rw [Get_fst]
  simp only at hrow
  rw [hrow]
  show (match mapGet (mapSet s3.cache k _) k with
    | none => (default, false)
    | some r => (r.Value, true)) = _
  rw [mapGet_mapSet]
  simp

/-- Witness for C1: capacity 3, ttl 60, `Push(1, "one")` at time 0 on the new cache and
`Get(1)` at time 5. -/
theorem push_get_round_trip_witness :
    (New Nat String 3 60).Bijection ∧ (1 : Int) ≤ (New Nat String 3 60).limit ∧
    ∃ s1, (New Nat String 3 60).Push 0 1 "one" = some s1 ∧ (s1.Get 5 1).1 = ("one", true) :=
  ⟨by decide, by decide,
    push_get_round_trip (New Nat String 3 60) 1 "one" 0 5 (by decide) (by decide) (by decide)
      (by decide)⟩


/-- C2. LRU eviction order: pushing `m ≥ n` pairwise distinct keys in order into a new cache
of capacity `n ≥ 1`, no entry expiring during the sequence, completes and leaves exactly the
last `n` pushed keys tracked, in push order from front to back; a key pushed before them is
reported absent by `Get`, and each of the last `n` keys is found with its value as long as
it has not expired. -/
theorem lru_eviction_order [Inhabited V] (n : Nat) (ttl : Int) (ps : List (Int × K × V))
    (hn : 1 ≤ n) (hm : n ≤ ps.length)
    (hd : (ps.map (fun p => p.2.1)).Nodup)
    (hne : ps.Pairwise (fun a b => b.1 ≤ a.1 + ttl)) :
    ∃ s, (New K V n ttl).run (ps.map (fun p => Op.push p.1 p.2.1 p.2.2)) = some s ∧
      s.keys = (ps.drop (ps.length - n)).map (fun p => p.2.1) ∧
      s.keys.length = n ∧
      (∀ k, mapGet s.cache k ≠ none ↔ k ∈ (ps.drop (ps.length - n)).map (fun p => p.2.1)) ∧
      (∀ p ∈ ps.take (ps.length - n), ∀ t', (s.Get t' p.2.1).1 = (default, false)) ∧
      (∀ p ∈ ps.drop (ps.length - n), ∀ t', t' ≤ p.1 + ttl →
        (s.Get t' p.2.1).1 = (p.2.2, true)) := by
  obtain ⟨s, hr, hb, hlim, httl, hent⟩ := pushes_entries n ttl hn ps hd hne
  have hkeys : s.keys = (ps.drop (ps.length - n)).map (fun p => p.2.1) := by
    rw [← map_fst_entries, hent, List.map_map]
    rfl
  refine ⟨s, hr, hkeys, ?_, ?_, ?_, ?_⟩
  · rw [hkeys, List.length_map, List.length_drop]
    omega
  · intro k
    rw [← hkeys]
    exact hb.mapGet_ne_none_iff k
  · intro p hp t'
    apply Get_fst_of_none
    apply hb.mapGet_eq_none
    rw [hkeys]
    intro hx
    rw [← List.take_append_drop (ps.length - n) ps, List.map_append, List.nodup_append] at hd
    exact hd.2.2 (List.mem_map_of_mem (fun p => p.2.1) hp) hx
  · intro p hp t' ht'
    have hin : (p.2.1, p.1 + ttl, some p.2.2) ∈ s.entries := by
      rw [hent]
      exact List.mem_map.2 ⟨p, hp, rfl⟩
    obtain ⟨r, hrow, hval⟩ := mapGet_of_mem_entries hin
    obtain ⟨e, he, hee⟩ := List.mem_map.1 hin
    simp only [Prod.mk.injEq] at hee
    have hlive : e.Value.isExpired t' = false := by
      simp only [listItem.isExpired, hee.2.1, decide_eq_false_iff_not, not_lt]
      exact ht'
    rw [← hee.1] at hrow ⊢
    rw [hb.Get_fst_of_live he hlive hrow, hval]

/-- Witness for C2: capacity 3, keys 0..4 pushed at times 0..4 with ttl 60. -/
theorem lru_eviction_order_witness :
    ∃ s, (New Nat Nat 3 60).run
        ([(0, 0, 0), (1, 1, 1), (2, 2, 2), (3, 3, 3), ((4 : Int), 4, 4)].map
          (fun p => Op.push p.1 p.2.1 p.2.2)) = some s ∧
      s.keys = ([(0, 0, 0), (1, 1, 1), (2, 2, 2), (3, 3, 3), ((4 : Int), 4, 4)].drop
        ([(0, 0, 0), (1, 1, 1), (2, 2, 2), (3, 3, 3), ((4 : Int), 4, 4)].length - 3)).map
          (fun p => p.2.1) ∧
      s.keys.length = 3 ∧
      (∀ k, mapGet s.cache k ≠ none ↔
        k ∈ ([(0, 0, 0), (1, 1, 1), (2, 2, 2), (3, 3, 3), ((4 : Int), 4, 4)].drop
          ([(0, 0, 0), (1, 1, 1), (2, 2, 2), (3, 3, 3), ((4 : Int), 4, 4)].length - 3)).map
            (fun p => p.2.1)) ∧
      (∀ p ∈ [(0, 0, 0), (1, 1, 1), (2, 2, 2), (3, 3, 3), ((4 : Int), 4, 4)].take
          ([(0, 0, 0), (1, 1, 1), (2, 2, 2), (3, 3, 3), ((4 : Int), 4, 4)].length - 3),
        ∀ t', (s.Get t' p.2.1).1 = (default, false)) ∧
      (∀ p ∈ [(0, 0, 0), (1, 1, 1), (2, 2, 2), (3, 3, 3), ((4 : Int), 4, 4)].drop
          ([(0, 0, 0), (1, 1, 1), (2, 2, 2), (3, 3, 3), ((4 : Int), 4, 4)].length - 3),
        ∀ t', t' ≤ p.1 + 60 → (s.Get t' p.2.1).1 = (p.2.2, true)) :=
  lru_eviction_order 3 60 [(0, 0, 0), (1, 1, 1), (2, 2, 2), (3, 3, 3), (4, 4, 4)]
    (by decide) (by decide) (by decide) (by decide)

/-- C3. Capacity invariant: on a cache created by `New` with capacity `n ≥ 1`, every
sequence of `Push`, `Get` and `Remove` calls completes, and after every call of the
sequence (after every prefix `ops.take i`) `Len` is at most `n`. -/
theorem capacity_invariant [Inhabited V] (n ttl : Int) (ops : List (Op K V)) (i : Nat)
    (hn : 1 ≤ n) :
    ∃ s, (New K V n ttl).run (ops.take i) = some s ∧ s.Len ≤ n := by
  obtain ⟨s, hr, _, _, _, hlen⟩ :=
    run_invariant (Bijection_New n ttl) hn (by simp [New]; omega) (ops.take i)
  exact ⟨s, hr, hlen⟩

/-- Witness for C3: capacity 3, five pushes of the keys 0..4, then a `Get` and a `Remove`. -/
theorem capacity_invariant_witness :
    (1 : Int) ≤ 3 ∧
    ∃ s, (New Nat Nat 3 60).run
        ([Op.push 0 0 0, Op.push 1 1 1, Op.push 2 2 2, Op.push 3 3 3, Op.push 4 4 4,
          Op.get 5 2, Op.remove 6 3].take 5) = some s ∧ s.Len ≤ 3 :=
  ⟨by decide, capacity_invariant 3 60
    [Op.push 0 0 0, Op.push 1 1 1, Op.push 2 2 2, Op.push 3 3 3, Op.push 4 4 4,
      Op.get 5 2, Op.remove 6 3] 5 (by decide)⟩


/-- C4. Get promotes recency: after a successful `Get(k)` the node of `k` is the back
element of the ordering list, stamped `now + ttl`.  So when the cache is then full, with
capacity at least 2, and nothing has expired, the next `Push` of a new key evicts the first
key of the swept list other than `k` (the former least recently used one) and `k` is still
found afterwards, with its value. -/
theorem get_promotes_recency [Inhabited V] (s : LRUCache K V) (now : Int) (k : K)
    (hb : s.Bijection) (hfound : (s.Get now k).1.2 = true) :
    (∃ e, (s.Get now k).2.ttlList.getLast? =
        some { id := e, Value := { Key := k, ExpiresAt := now + s.ttl } }) ∧
    ∀ (now' : Int) (k' : K) (v' : V), 2 ≤ s.limit → (s.Get now k).2.Len = s.limit →
      mapGet (s.Get now k).2.cache k' = none →
      (∀ n ∈ (s.Get now k).2.ttlList, n.Value.isExpired now' = false) →
      ∃ lru s2, ((s.unsafeClear now).keys.filter (fun x => decide (x ≠ k))).head? = some lru ∧
        (s.Get now k).2.Push now' k' v' = some s2 ∧
        mapGet s2.cache lru = none ∧ lru ∉ s2.keys ∧
        (s2.Get now' k).1 = ((s.Get now k).1.1, true) := by
  cases hr : mapGet (s.unsafeClear now).cache k with
  | none => rw [Get_eq_of_none hr] at hfound; exact Bool.noConfusion hfound
  | some r =>
    rw [Get_eq_of_some hb hr]
    have hb1 := (hb.unsafeClear now).touch now hr
    set s1 := (s.unsafeClear now).touch now k r.Node with hs1
    have hlist : s1.ttlList = (s.unsafeClear now).ttlList.filter
        (fun n => decide (n.Value.Key ≠ k)) ++
        [{ id := r.Node, Value := { Key := k, ExpiresAt := now + s.ttl } }] := rfl
    refine ⟨⟨r.Node, by rw [hlist, List.getLast?_concat]⟩, ?_⟩
    intro now' k' v' hl hfull hnew hlive
    have hl1 : 1 ≤ s1.limit := by
      show 1 ≤ s.limit
      omega
    have hsweep : s1.unsafeClear now' = s1 :=
      unsafeClear_of_not_expired s1 now' (fun e he => hlive e (List.mem_of_mem_head? he))
    have hpush := Push_eq hb1 hl1 now' k' v'
    rw [hsweep] at hpush
    cases hF : (s.unsafeClear now).ttlList.filter (fun n => decide (n.Value.Key ≠ k)) with
    | nil =>
      rw [hF] at hlist
      have : s1.Len = 1 := by simp [Len, hlist]
      have hlim : s1.Len = s.limit := hfull
      omega
    | cons f F =>
      rw [hF] at hlist
      have hfk : f.Value.Key ≠ k := by
        have : f ∈ (s.unsafeClear now).ttlList.filter (fun n => decide (n.Value.Key ≠ k)) := by
          rw [hF]; simp
        simpa using (List.mem_filter.1 this).2
      have hfmem : f ∈ s1.ttlList := by rw [hlist]; simp
      have hkmem : ({ id := r.Node, Value := { Key := k, ExpiresAt := now + s.ttl } } :
          Element K) ∈ s1.ttlList := by rw [hlist]; simp
      have hfk' : f.Value.Key ≠ k' := by
        intro e
        obtain ⟨r', hr', _⟩ := hb1.row_of_node hfmem
        rw [e, hnew] at hr'
        exact Option.noConfusion hr'
      have hkk' : k ≠ k' := by
        intro e
        obtain ⟨r', hr', _⟩ := hb1.row_of_node hkmem
        simp only at hr'
        rw [e, hnew] at hr'
        exact Option.noConfusion hr'
      have hevict : s1.evictFront = s1.dropKey f.Value.Key := by
        unfold evictFront
        have hlen : s1.limit ≤ ((s1.ttlList.length : Nat) : Int) := by
          have hlim : s1.Len = s.limit := hfull
          show s.limit ≤ _
          rw [← hlim]
          exact le_refl _
        have hh : s1.ttlList.head? = some f := by rw [hlist]; rfl
        rw [hh]
        simp only [hlen, if_true]
      rw [hevict] at hpush
      have hb2 := Bijection.Push hb1 hl1 hpush
      refine ⟨f.Value.Key, _, ?_, hpush, ?_, ?_, ?_⟩
      · have : (s.unsafeClear now).keys.filter (fun x => decide (x ≠ k)) =
            ((s.unsafeClear now).ttlList.filter (fun n => decide (n.Value.Key ≠ k))).map
              (fun n => n.Value.Key) := by
          unfold keys
          rw [List.filter_map]
          rfl
        rw [this, hF]
        rfl
      · show mapGet (mapSet ((s1.dropKey f.Value.Key).dropKey k').cache k' _) f.Value.Key = none
        rw [mapGet_mapSet, if_neg hfk', mapGet_dropKey, if_neg hfk', mapGet_dropKey]
        simp
      · intro hmem
        obtain ⟨m, hm, hmk⟩ := mem_keys.1 hmem
        have hm' : m ∈ ((s1.dropKey f.Value.Key).dropKey k').ttlList ++
            [{ id := ((s1.dropKey f.Value.Key).dropKey k').nextId,
               Value := { Key := k', ExpiresAt := now' +
                ((s1.dropKey f.Value.Key).dropKey k').ttl } }] := hm
        rcases List.mem_append.1 hm' with hm' | hm'
        · have h1 := List.mem_of_mem_filter hm'
          have h2 := (List.mem_filter.1 h1).2
          simp [hmk] at h2
        · simp at hm'
          rw [hm'] at hmk
          exact hfk' hmk.symm
      · have hmem2 : ({ id := r.Node, Value := { Key := k, ExpiresAt := now + s.ttl } } :
            Element K) ∈ (((s1.dropKey f.Value.Key).dropKey k').pushBack now' k' v').ttlList := by
          show _ ∈ ((s1.ttlList.filter _).filter _) ++ [_]
          apply List.mem_append_left
          refine List.mem_filter.2 ⟨List.mem_filter.2 ⟨hkmem, ?_⟩, ?_⟩
          · simpa using fun e => hfk e.symm
          · simpa using hkk'
        have hrow : mapGet (((s1.dropKey f.Value.Key).dropKey k').pushBack now' k' v').cache k
            = some r := by
          show mapGet (mapSet ((s1.dropKey f.Value.Key).dropKey k').cache k' _) k = some r
          rw [mapGet_mapSet, if_neg hkk', mapGet_dropKey, if_neg hkk', mapGet_dropKey,
            if_neg (fun e => hfk e.symm)]
          exact hr
        exact hb2.Get_fst_of_live hmem2 (hlive _ hkmem) hrow

/-- Witness for C4, the scenario of `TestLRUEviction`: capacity 2, after `Push(1)`,
`Push(2)`, `Push(3)` the call `Get(2)` succeeds, and `Push(4)` then leaves key 3 absent and
key 2 present. -/
theorem get_promotes_recency_witness :
    (New Nat String 2 60).run [Op.push 0 1 "one", Op.push 1 2 "two", Op.push 2 3 "three"] =
      some evictionScenario ∧
    evictionScenario.Bijection ∧ (evictionScenario.Get 3 2).1.2 = true ∧
    ((evictionScenario.Get 3 2).2.Push 4 4 "four").map
      (fun s2 => ((s2.Get 5 3).1, (s2.Get 5 2).1)) = some (("", false), ("two", true)) ∧
    ((∃ e, (evictionScenario.Get 3 2).2.ttlList.getLast? =
        some { id := e, Value := { Key := 2, ExpiresAt := 3 + evictionScenario.ttl } }) ∧
    ∀ (now' : Int) (k' : Nat) (v' : String), 2 ≤ evictionScenario.limit →
      (evictionScenario.Get 3 2).2.Len = evictionScenario.limit →
      mapGet (evictionScenario.Get 3 2).2.cache k' = none →
      (∀ n ∈ (evictionScenario.Get 3 2).2.ttlList, n.Value.isExpired now' = false) →
      ∃ lru s2, ((evictionScenario.unsafeClear 3).keys.filter
          (fun x => decide (x ≠ 2))).head? = some lru ∧
        (evictionScenario.Get 3 2).2.Push now' k' v' = some s2 ∧
        mapGet s2.cache lru = none ∧ lru ∉ s2.keys ∧
        (s2.Get now' 2).1 = ((evictionScenario.Get 3 2).1.1, true)) :=
  ⟨by decide, by decide, by decide, by decide,
    get_promotes_recency evictionScenario 3 2 (by decide) (by decide)⟩


/-- C5. TTL expiration: on a cache created by `New` with capacity `n ≥ 1` and ttl `d ≥ 0`,
after any earlier calls (at clock readings up to `t`), a `Push` of key `k` at time `t`
and then any calls on other keys, an operation on `k` at a time `t' > t + d` reports it
absent: `Get(k)` returns the zero value with `false` and `Remove(k)` returns `false`. -/
theorem ttl_expiration [Inhabited V] (n d : Int) (pre mid : List (Op K V)) (t t' : Int)
    (k : K) (v : V) (hn : 1 ≤ n) (hd : 0 ≤ d) (hpre : ∀ op ∈ pre, op.time ≤ t)
    (hmid : ∀ op ∈ mid, op.key ≠ k) (ht : t + d < t') :
    ∃ s, (New K V n d).run (pre ++ Op.push t k v :: mid) = some s ∧
      (s.Get t' k).1 = (default, false) ∧ (s.Remove t' k).1 = false := by
  obtain ⟨s0, hr0, hb0, hlim0, httl0, hP0⟩ :=
    run_induction (fun s : LRUCache K V => ∀ a ∈ s.ttlList, a.Value.ExpiresAt ≤ t + s.ttl) pre
      (fun s op s1 hop hb hl hP hs => step_clockBound hb hl (hpre op hop) hP hs)
      (Bijection_New n d) hn (by simp [New])
  have hl0 : 1 ≤ s0.limit := by rw [hlim0]; exact hn
  obtain ⟨s1, L, X, hs1, hb1, hlim1, httl1, _, _, _, _⟩ := step_shape hb0 hl0 (Op.push t k v)
  have hP1 := step_clockBound hb0 hl0 (le_refl t) hP0 hs1
  have hd1 : s1.ttl = d := by rw [httl1, httl0]; rfl
  rw [hd1] at hP1
  have hl1 : 1 ≤ s1.limit := by rw [hlim1]; exact hl0
  obtain ⟨s2, hr2, hb2, _, _, hP2⟩ :=
    run_induction (fun s : LRUCache K V => expiryGuard k (t + d) s.ttlList) mid
      (fun s op s1 hop hb hl hP hs => step_expiryGuard hb hl (hmid op hop) hP hs)
      hb1 hl1 (expiryGuard_of_forall k (t + d) s1.ttlList hP1)
  have hnone := hb2.swept_of_expiryGuard ht hP2
  refine ⟨s2, ?_, ?_, ?_⟩
  · rw [run_append, hr0]
    simp only [Option.some_bind, run, hs1]
    exact hr2
  · rw [Get_eq_of_none hnone]
  · rw [Remove_eq_of_none hnone]

/-- Witness for C5, the scenario of `TestTTLEviction`: capacity 10, ttl 100, `Push(1)` at
time 0 and the operation on key 1 at time 200; a push of key 2 happens in between. -/
theorem ttl_expiration_witness :
    (1 : Int) ≤ 10 ∧ (0 : Int) ≤ 100 ∧
    (∀ op ∈ ([] : List (Op Nat String)), op.time ≤ 0) ∧
    (∀ op ∈ [(Op.push 50 2 "two" : Op Nat String)], op.key ≠ 1) ∧ (0 : Int) + 100 < 200 ∧
    ∃ s, (New Nat String 10 100).run ([] ++ Op.push 0 1 "one" :: [Op.push 50 2 "two"]) = some s ∧
      (s.Get 200 1).1 = (default, false) ∧ (s.Remove 200 1).1 = false :=
  ⟨by decide, by decide, by decide, by decide, by decide,
    ttl_expiration 10 100 [] [Op.push 50 2 "two"] 0 200 1 "one" (by decide) (by decide)
      (by decide) (by decide) (by decide)⟩

/-- C6. TTL refresh on read: on a cache with ttl `d > 0` reached from `New` by calls at clock
readings up to `t`, if `Get(k)` succeeds at time `t`, then a `Get(k)` that follows at time
`t + d` still finds the key (with the same value), whereas a `Get(k)` that follows first at
time `t + 2d` returns not found. -/
theorem ttl_refresh_on_read [Inhabited V] (n d : Int) (pre : List (Op K V)) (t : Int) (k : K)
    (s : LRUCache K V) (hn : 1 ≤ n) (hd : 0 < d) (hpre : ∀ op ∈ pre, op.time ≤ t)
    (hrun : (New K V n d).run pre = some s) (hfound : (s.Get t k).1.2 = true) :
    ((s.Get t k).2.Get (t + d) k).1 = ((s.Get t k).1.1, true) ∧
    ((s.Get t k).2.Get (t + 2 * d) k).1 = (default, false) := by
  obtain ⟨s0, hr0, hb, hlim, httl, hP⟩ :=
    run_induction (fun s : LRUCache K V => ∀ a ∈ s.ttlList, a.Value.ExpiresAt ≤ t + s.ttl) pre
      (fun s op s1 hop hb hl hP hs => step_clockBound hb hl (hpre op hop) hP hs)
      (Bijection_New n d) hn (by simp [New])
  rw [hrun] at hr0
  have heq : s = s0 := Option.some.inj hr0
  subst heq
  have hl : 1 ≤ s.limit := by rw [hlim]; exact hn
  have hd' : s.ttl = d := httl
  have hb1 := hb.Get t k
  have hP1 : ∀ a ∈ (s.Get t k).2.ttlList, a.Value.ExpiresAt ≤ t + (s.Get t k).2.ttl :=
    @step_clockBound _ _ _ _ s (s.Get t k).2 hb hl (Op.get t k) t (le_refl t) hP rfl
  cases hr : mapGet (s.unsafeClear t).cache k with
  | none => rw [Get_eq_of_none hr] at hfound; exact Bool.noConfusion hfound
  | some r =>
    rw [Get_eq_of_some hb hr] at hb1 hP1 ⊢
    constructor
    · have hmem : ({ id := r.Node, Value := { Key := k, ExpiresAt := t + s.ttl } } : Element K) ∈
          ((s.unsafeClear t).touch t k r.Node).ttlList := by
        show _ ∈ _ ++ [_]
        simp
        rfl
      have hlive : ({ id := r.Node, Value := { Key := k, ExpiresAt := t + s.ttl } } :
          Element K).Value.isExpired (t + d) = false := by
        simp [listItem.isExpired, hd']
      exact hb1.Get_fst_of_live hmem hlive hr
    · have httl1 : ((s.unsafeClear t).touch t k r.Node).ttl = d := hd'
      simp only [httl1] at hP1
      have hg := expiryGuard_of_forall k (t + d) _ hP1
      have hnone := hb1.swept_of_expiryGuard (show t + d < t + 2 * d by omega) hg
      rw [Get_eq_of_none hnone]

/-- Witness for C6, the scenario of `TestTTLRefreshOnGet`: capacity 3, ttl 100, `Push(1)` at
time 0 and `Get(1)` at time 50; the key is found at time 150 and would be absent at 250. -/
theorem ttl_refresh_on_read_witness :
    (1 : Int) ≤ 3 ∧ (0 : Int) < 100 ∧
    (∀ op ∈ [(Op.push 0 1 "one" : Op Nat String)], op.time ≤ 50) ∧
    (New Nat String 3 100).run [Op.push 0 1 "one"] = some refreshScenario ∧
    (refreshScenario.Get 50 1).1.2 = true ∧
    ((refreshScenario.Get 50 1).2.Get (50 + 100) 1).1 = ((refreshScenario.Get 50 1).1.1, true) ∧
    ((refreshScenario.Get 50 1).2.Get (50 + 2 * 100) 1).1 = (default, false) :=
  ⟨by decide, by decide, by decide, by decide, by decide,
    ttl_refresh_on_read 3 100 [Op.push 0 1 "one"] 50 1 refreshScenario (by decide) (by decide)
      (by decide) (by decide) (by decide)⟩


/-- C7. Replace semantics: in a state that satisfies the bijection, with `limit ≥ 1`, when
key `k` is tracked and not expired at time `t`, `Push(k, v')` at `t` completes; a `Get(k)`
that follows (at `t ≤ t' ≤ t + ttl`) returns `v'`, the entry of `k` is the back of the
ordering list with expiration `t + ttl`, and `Len` has not grown. -/
theorem replace_semantics [Inhabited V] (s : LRUCache K V) (k : K) (v' : V) (t t' : Int)
    (hb : s.Bijection) (hl : 1 ≤ s.limit)
    (hpresent : ∃ n ∈ s.ttlList, n.Value.Key = k ∧ n.Value.isExpired t = false)
    (h1 : t ≤ t') (h2 : t' ≤ t + s.ttl) :
    ∃ s1, s.Push t k v' = some s1 ∧ (s1.Get t' k).1 = (v', true) ∧
      s1.entries.getLast? = some (k, t + s.ttl, some v') ∧ s1.Len ≤ s.Len := by
  have hb3 := (hb.unsafeClear t).evictFront.dropKey k
  have hnone : mapGet (((s.unsafeClear t).evictFront).dropKey k).cache k = none := by
    rw [mapGet_dropKey]; simp
  have httl : (((s.unsafeClear t).evictFront).dropKey k).ttl = s.ttl := by
    show ((s.unsafeClear t).evictFront).ttl = s.ttl
    rw [evictFront_ttl]; rfl
  refine ⟨_, Push_eq hb hl t k v', ?_, ?_, ?_⟩
  · exact hb3.Get_after_pushBack hnone v' (by rw [httl]; exact h2)
  · rw [entries_pushBack hb3 t v' hnone, List.getLast?_concat, httl]
  · obtain ⟨n, hn, hnk, hlive⟩ := hpresent
    have hn1 := (hb.live_survives hn hlive).1
    have hlen0 : (s.unsafeClear t).ttlList.length ≤ s.ttlList.length :=
      (unsafeClear_sublist s t).length_le
    have hpos : 0 < (s.unsafeClear t).ttlList.length := List.length_pos_of_mem hn1
    show ((((((s.unsafeClear t).evictFront).dropKey k).ttlList ++ [_]).length : Nat) : Int) ≤
      ((s.ttlList.length : Nat) : Int)
    rw [List.length_append, List.length_singleton]
    by_cases hc : (s.unsafeClear t).limit ≤ (((s.unsafeClear t).ttlList.length : Nat) : Int)
    · have h3 := length_evictFront (hb.unsafeClear t)
      rw [if_pos hc] at h3
      have h4 : (((s.unsafeClear t).evictFront).dropKey k).ttlList.length ≤
          (s.unsafeClear t).evictFront.ttlList.length := (List.filter_sublist _).length_le
      omega
    · rw [evictFront_of_lt hc]
      have h5 := length_filter_key_of_nodup k (s.unsafeClear t).ttlList
        (hb.unsafeClear t).2.2.1 (List.mem_map.2 ⟨n, hn1, hnk⟩)
      have h6 : ((s.unsafeClear t).dropKey k).ttlList.length + 1 =
          (s.unsafeClear t).ttlList.length := h5
      omega

/-- Witness for C7, the scenario of `TestReplaceExisting`: capacity 3, `Push(1, "one")` then
`Push(1, "new one")`; `Get(1)` returns `"new one"` and `Len` is 1. -/
theorem replace_semantics_witness :
    (New Nat String 3 60).run [Op.push 0 1 "one"] = some singleEntryScenario ∧
    singleEntryScenario.Bijection ∧ 1 ≤ singleEntryScenario.limit ∧
    (∃ n ∈ singleEntryScenario.ttlList, n.Value.Key = 1 ∧ n.Value.isExpired 1 = false) ∧
    (singleEntryScenario.Push 1 1 "new one").map (fun s1 => s1.Len) = some 1 ∧
    ∃ s1, singleEntryScenario.Push 1 1 "new one" = some s1 ∧
      (s1.Get 2 1).1 = ("new one", true) ∧
      s1.entries.getLast? = some (1, 1 + singleEntryScenario.ttl, some "new one") ∧
      s1.Len ≤ singleEntryScenario.Len :=
  ⟨by decide, by decide, by decide, by decide, by decide,
    replace_semantics singleEntryScenario 1 "new one" 1 2 (by decide) (by decide) (by decide)
      (by decide) (by decide)⟩

/-- C8. Remove of a present key: in a state that satisfies the bijection, when key `k` is
tracked and not expired at the call time, `Remove(k)` returns `true`; afterwards `k` is in
neither the table nor the ordering list, a following `Get(k)` returns not found, `Len` is
one less than in the swept state, and the entries are those of the swept state without `k`:
every other entry that is not expired keeps its value, expiration and relative order. -/
theorem remove_present [Inhabited V] (s : LRUCache K V) (k : K) (now : Int)
    (hb : s.Bijection)
    (hpresent : ∃ n ∈ s.ttlList, n.Value.Key = k ∧ n.Value.isExpired now = false) :
    (s.Remove now k).1 = true ∧
    mapGet (s.Remove now k).2.cache k = none ∧ k ∉ (s.Remove now k).2.keys ∧
    (∀ t', ((s.Remove now k).2.Get t' k).1 = (default, false)) ∧
    (s.Remove now k).2.Len + 1 = (s.unsafeClear now).Len ∧
    (s.Remove now k).2.entries =
      (s.unsafeClear now).entries.filter (fun e => decide (e.1 ≠ k)) ∧
    (s.Remove now k).2.entries.filter (fun e => !decide (e.2.1 < now)) =
      (s.entries.filter (fun e => !decide (e.2.1 < now))).filter (fun e => decide (e.1 ≠ k)) := by
  obtain ⟨n, hn, hnk, hlive⟩ := hpresent
  obtain ⟨hn1, hrow1⟩ := hb.live_survives hn hlive
  obtain ⟨r, hr, _⟩ := hb.row_of_node hn
  rw [hr, hnk] at hrow1
  have hb1 := hb.unsafeClear now
  rw [Remove_eq_of_some hb hrow1]
  have hnone : mapGet ((s.unsafeClear now).dropKey k).cache k = none := by
    rw [mapGet_dropKey]; simp
  refine ⟨rfl, hnone, (hb1.dropKey k).not_mem_keys hnone, fun t' => Get_fst_of_none hnone t',
    ?_, entries_dropKey _ k, ?_⟩
  · have := length_filter_key_of_nodup k (s.unsafeClear now).ttlList hb1.2.2.1
      (List.mem_map.2 ⟨n, hn1, hnk⟩)
    show ((((s.unsafeClear now).dropKey k).ttlList.length : Nat) : Int) + 1 =
      (((s.unsafeClear now).ttlList.length : Nat) : Int)
    have h6 : ((s.unsafeClear now).dropKey k).ttlList.length + 1 =
        (s.unsafeClear now).ttlList.length := this
    omega
  · show ((s.unsafeClear now).dropKey k).entries.filter _ = _
    rw [entries_dropKey, entries_unsafeClear hb]
    have hcomm : ∀ l : List (K × Int × Option V),
        (l.filter (fun e => decide (e.1 ≠ k))).filter (fun e => !decide (e.2.1 < now)) =
        (l.filter (fun e => !decide (e.2.1 < now))).filter (fun e => decide (e.1 ≠ k)) := by
      intro l
      rw [List.filter_filter, List.filter_filter]
      apply List.filter_congr
      intro e _
      exact Bool.and_comm _ _
    rw [hcomm, filter_not_dropWhile (fun e : K × Int × Option V => decide (e.2.1 < now))]

/-- Witness for C8, the scenario of `TestRemove`: capacity 3, `Push(1, "one")` at time 0 and
`Remove(1)` at time 1. -/
theorem remove_present_witness :
    singleEntryScenario.Bijection ∧
    (∃ n ∈ singleEntryScenario.ttlList, n.Value.Key = 1 ∧ n.Value.isExpired 1 = false) ∧
    (singleEntryScenario.Remove 1 1).1 = true ∧
    mapGet (singleEntryScenario.Remove 1 1).2.cache 1 = none ∧
    1 ∉ (singleEntryScenario.Remove 1 1).2.keys ∧
    (∀ t', ((singleEntryScenario.Remove 1 1).2.Get t' 1).1 = (default, false)) ∧
    (singleEntryScenario.Remove 1 1).2.Len + 1 = (singleEntryScenario.unsafeClear 1).Len ∧
    (singleEntryScenario.Remove 1 1).2.entries =
      (singleEntryScenario.unsafeClear 1).entries.filter (fun e => decide (e.1 ≠ 1)) ∧
    (singleEntryScenario.Remove 1 1).2.entries.filter (fun e => !decide (e.2.1 < 1)) =
      (singleEntryScenario.entries.filter (fun e => !decide (e.2.1 < 1))).filter
        (fun e => decide (e.1 ≠ 1)) :=
  ⟨by decide, by decide, remove_present singleEntryScenario 1 1 (by decide) (by decide)⟩


/-- C9, as stated, fails: on the cache holding only key 1 (pushed at time 0 with ttl 60),
`Remove(2)` at time 100 returns `false` for the untracked key 2, yet the sweep it runs first
drops the expired key 1, so the ordering list and the table differ from those before. -/
theorem remove_absent_alters_state :
    (New Nat String 3 60).run [Op.push 0 1 "one"] = some singleEntryScenario ∧
    mapGet singleEntryScenario.cache 2 = none ∧ 2 ∉ singleEntryScenario.keys ∧
    (singleEntryScenario.Remove 100 2).1 = false ∧
    (singleEntryScenario.Remove 100 2).2.ttlList ≠ singleEntryScenario.ttlList ∧
    (singleEntryScenario.Remove 100 2).2.cache ≠ singleEntryScenario.cache := by
  decide

/-- C9, amended. Remove of an absent key changes nothing beyond the sweep: for every state
and every key `k` without a row after the sweep at the call time, `Remove(k)` returns
`false` and leaves exactly the swept state; when no tracked entry is expired at the call
time, that is the state before the call. -/
theorem remove_absent_noop (s : LRUCache K V) (now : Int) (k : K)
    (h : mapGet (s.unsafeClear now).cache k = none) :
    (s.Remove now k).1 = false ∧ (s.Remove now k).2 = s.unsafeClear now ∧
    ((∀ n ∈ s.ttlList, n.Value.isExpired now = false) → (s.Remove now k).2 = s) := by
  have hrem : s.Remove now k = (false, s.unsafeClear now) := by
    unfold Remove
    simp only [h]
  refine ⟨by rw [hrem], by rw [hrem], ?_⟩
  intro hlive
  rw [hrem]
  exact unsafeClear_of_not_expired s now (fun e he => hlive e (List.mem_of_mem_head? he))

/-- Witness for the amended C9: the expired key 1 of the single-entry cache, removed at
time 100. -/
theorem remove_absent_noop_witness :
    mapGet (singleEntryScenario.unsafeClear 100).cache 1 = none ∧
    (singleEntryScenario.Remove 100 1).1 = false ∧
    (singleEntryScenario.Remove 100 1).2 = singleEntryScenario.unsafeClear 100 ∧
    ((∀ n ∈ singleEntryScenario.ttlList, n.Value.isExpired 100 = false) →
      (singleEntryScenario.Remove 100 1).2 = singleEntryScenario) :=
  ⟨by decide, remove_absent_noop singleEntryScenario 100 1 (by decide)⟩

/-- C10. Get miss: for every state and every key `k` without a row after the sweep at the
call time, `Get(k)` returns the zero value of `V` with `found = false` and leaves exactly
the swept state. -/
theorem get_miss [Inhabited V] (s : LRUCache K V) (now : Int) (k : K)
    (h : mapGet (s.unsafeClear now).cache k = none) :
    (s.Get now k).1 = (default, false) ∧ (s.Get now k).2 = s.unsafeClear now := by
  have hget : s.Get now k = ((default, false), s.unsafeClear now) := by
    unfold Get
    simp only [h]
  rw [hget]
  exact ⟨rfl, rfl⟩

/-- Witness for C10, the scenario of `TestPushAndGet`: `Get(2)` on the cache that holds only
key 1. -/
theorem get_miss_witness :
    mapGet (singleEntryScenario.unsafeClear 1).cache 2 = none ∧
    (singleEntryScenario.Get 1 2).1 = (default, false) ∧
    (singleEntryScenario.Get 1 2).2 = singleEntryScenario.unsafeClear 1 :=
  ⟨by decide, get_miss singleEntryScenario 1 2 (by decide)⟩


/-- C11. `Len` is the number of nodes in the ordering list; under the bijection that is the
number of rows of the table, which holds one row per key.  `Len` takes no clock reading and
runs no sweep, so it counts entries whose TTL has lapsed: after a `Push` at time `t` on a
new cache, `Len` is 1 although the entry is expired at every `t' > t + ttl` and a sweep at
`t'` would leave `Len` 0. -/
theorem len_counts_unswept (s : LRUCache K V) (n ttl t t' : Int) (k : K) (v : V)
    (hb : s.Bijection) (hn : 1 ≤ n) (ht : t + ttl < t') :
    s.Len = (s.ttlList.length : Int) ∧ s.Len = (s.cache.length : Int) ∧
    (s.cache.map Prod.fst).Nodup ∧
    ∃ s1, (New K V n ttl).Push t k v = some s1 ∧ s1.Len = 1 ∧
      (∀ e ∈ s1.ttlList, e.Value.isExpired t' = true) ∧ (s1.unsafeClear t').Len = 0 := by
  refine ⟨rfl, ?_, hb.2.2.2.1, ?_⟩
  · show ((s.ttlList.length : Nat) : Int) = _
    rw [hb.length_cache]
  · have hlim : ¬ n ≤ 0 := by omega
    have hexp : decide (t + ttl < t') = true := by simpa using ht
    refine ⟨(New K V n ttl).pushBack t k v, ?_, ?_, ?_, ?_⟩
    · simp [Push, New, unsafeClear, clearLoop, evict, dropExisting, mapGet, hlim]
    · rfl
    · intro e he
      have : e = { id := 0, Value := { Key := k, ExpiresAt := t + ttl } } := by
        simpa [pushBack, New] using he
      rw [this]
      exact hexp
    · simp [Len, unsafeClear, pushBack, New, clearLoop, listItem.isExpired, ht]

/-- Witness for C11: capacity 3, ttl 60, a push at time 0 and the count read at time 100. -/
theorem len_counts_unswept_witness :
    singleEntryScenario.Bijection ∧ (1 : Int) ≤ 3 ∧ (0 : Int) + 60 < 100 ∧
    singleEntryScenario.Len = (singleEntryScenario.ttlList.length : Int) ∧
    singleEntryScenario.Len = (singleEntryScenario.cache.length : Int) ∧
    (singleEntryScenario.cache.map Prod.fst).Nodup ∧
    ∃ s1, (New Nat String 3 60).Push 0 1 "one" = some s1 ∧ s1.Len = 1 ∧
      (∀ e ∈ s1.ttlList, e.Value.isExpired 100 = true) ∧ (s1.unsafeClear 100).Len = 0 :=
  ⟨by decide, by decide, by decide,
    len_counts_unswept singleEntryScenario 3 60 0 100 1 "one" (by decide) (by decide)
      (by decide)⟩

/-- C12, the code at capacity 0: the first `Push` on the new cache enters the eviction branch
(`0 >= 0`), takes `Front()` of the empty list, which is nil, and dereferences it. -/
theorem push_capacity_zero_panics (ttl now : Int) (k : K) (v : V) :
    (New K V 0 ttl).Push now k v = none := by
  simp [Push, New, unsafeClear, clearLoop, evict]

/-- C13, the code under interleaving.  Caller A runs `Get(1)` up to the end of its membership
check and releases the lock; caller B runs `Remove(1)` to completion; caller A then acts on
the row it read and returns found, with the zero value, for the removed key.  Likewise,
when caller B runs `Push(1, "new")` between the check and the act of caller A's `Remove(1)`,
the act deletes the new row and leaves the new list node without a table row. -/
theorem check_then_act_race :
    GetCheck (singleEntryScenario.unsafeClear 1) 1 = some { Value := "one", Node := 0 } ∧
    ((singleEntryScenario.unsafeClear 1).Remove 1 1).1 = true ∧
    (GetAct ((singleEntryScenario.unsafeClear 1).Remove 1 1).2 1 1
      { Value := "one", Node := 0 }).1 = ("", true) ∧
    RemoveCheck (singleEntryScenario.unsafeClear 1) 1 = some { Value := "one", Node := 0 } ∧
    ((singleEntryScenario.unsafeClear 1).Push 1 1 "new").map
      (fun s2 => ((RemoveAct s2 1 1 { Value := "one", Node := 0 }).2.keys,
        (RemoveAct s2 1 1 { Value := "one", Node := 0 }).2.cache,
        decide (RemoveAct s2 1 1 { Value := "one", Node := 0 }).2.Bijection)) =
      some ([1], [], false) := by
  decide


/-- C14. Bijection invariant: on a cache created by `New` with `limit ≥ 1`, every sequential
run of `Push`, `Get` and `Remove` completes, and after every call of it (after every prefix
`ops.take i`) the keys of the table are exactly the keys of the list nodes, no key occurs
in two list nodes, and the node reference of each row is the one list node that carries
the row's key. -/
theorem bijection_invariant [Inhabited V] (n ttl : Int) (ops : List (Op K V)) (i : Nat)
    (hn : 1 ≤ n) :
    ∃ s, (New K V n ttl).run (ops.take i) = some s ∧
      (∀ k, mapGet s.cache k ≠ none ↔ k ∈ s.keys) ∧ s.keys.Nodup ∧
      (∀ k r, mapGet s.cache k = some r →
        ∃ e ∈ s.ttlList, e.id = r.Node ∧ e.Value.Key = k ∧
          (∀ m ∈ s.ttlList, m.id = r.Node → m = e) ∧
          (∀ m ∈ s.ttlList, m.Value.Key = k → m = e)) := by
  obtain ⟨s, hr, hb, _, _, _⟩ :=
    run_invariant (Bijection_New n ttl) hn (by simp [New]; omega) (ops.take i)
  refine ⟨s, hr, hb.mapGet_ne_none_iff, hb.2.2.1, ?_⟩
  intro k r hrow
  obtain ⟨e, he, hek, hei⟩ := hb.node_of_row hrow
  refine ⟨e, he, hei, hek, ?_, ?_⟩
  · intro m hm hmi
    exact hb.id_inj hm he (by rw [hmi, hei])
  · intro m hm hmk
    exact hb.key_inj hm he (by rw [hmk, hek])

/-- Witness for C14: capacity 2, pushes of the keys 1, 2, 3 and 2 again, a `Get` and a
`Remove`. -/
theorem bijection_invariant_witness :
    (1 : Int) ≤ 2 ∧
    ∃ s, (New Nat String 2 60).run
        ([Op.push 0 1 "one", Op.push 1 2 "two", Op.push 2 3 "three", Op.push 3 2 "again",
          Op.get 4 3, Op.remove 5 2].take 6) = some s ∧
      (∀ k, mapGet s.cache k ≠ none ↔ k ∈ s.keys) ∧ s.keys.Nodup ∧
      (∀ k r, mapGet s.cache k = some r →
        ∃ e ∈ s.ttlList, e.id = r.Node ∧ e.Value.Key = k ∧
          (∀ m ∈ s.ttlList, m.id = r.Node → m = e) ∧
          (∀ m ∈ s.ttlList, m.Value.Key = k → m = e)) :=
  ⟨by decide, bijection_invariant 2 60
    [Op.push 0 1 "one", Op.push 1 2 "two", Op.push 2 3 "three", Op.push 3 2 "again",
      Op.get 4 3, Op.remove 5 2] 6 (by decide)⟩

/-- C15. Order-monotonicity invariant: on a cache created by `New`, when the clock readings
of successive calls do not decrease, after every completed call of a run (after every prefix
`ops.take i` that completes) the expirations of the list nodes do not decrease from front to
back; with `limit ≥ 1` every call completes. -/
theorem order_monotonicity [Inhabited V] (n ttl : Int) (ops : List (Op K V)) (i : Nat)
    (hclock : (ops.map Op.time).Pairwise (fun a b => a ≤ b)) :
    (1 ≤ n → ∃ s, (New K V n ttl).run (ops.take i) = some s) ∧
    ∀ s, (New K V n ttl).run (ops.take i) = some s →
      s.ttlList.Pairwise (fun a b => a.Value.ExpiresAt ≤ b.Value.ExpiresAt) := by
  have hclock' : ((ops.take i).map Op.time).Pairwise (fun a b => a ≤ b) := by
    rw [List.map_take]
    exact hclock.take
  have hpos : 1 ≤ n → ∃ s, (New K V n ttl).run (ops.take i) = some s ∧
      s.ttlList.Pairwise (fun a b => a.Value.ExpiresAt ≤ b.Value.ExpiresAt) := by
    intro hn
    cases hops : ops.take i with
    | nil => exact ⟨New K V n ttl, rfl, by simp [New]⟩
    | cons op rest =>
      rw [hops] at hclock'
      have hT : ∀ op' ∈ op :: rest, op.time ≤ op'.time := by
        intro op' hop'
        rw [List.map_cons, List.pairwise_cons] at hclock'
        rcases List.mem_cons.1 hop' with h | h
        · rw [h]
        · exact hclock'.1 op'.time (List.mem_map_of_mem Op.time h)
      obtain ⟨s, hr, _, ho⟩ := run_expiryOrdered (op :: rest) op.time (Bijection_New n ttl) hn
        (by simp [New, expiryOrdered]) (by simp [New]) hT hclock'
      exact ⟨s, hr, ho⟩
  constructor
  · intro hn
    obtain ⟨s, hr, _⟩ := hpos hn
    exact ⟨s, hr⟩
  · intro s hrun
    by_cases hn : 1 ≤ n
    · obtain ⟨s0, hr, ho⟩ := hpos hn
      rw [hrun] at hr
      rw [Option.some.inj hr]
      exact ho
    · have hl : (New K V n ttl).limit ≤ 0 := by
        show n ≤ 0
        omega
      rw [run_of_limit_le_zero (ops.take i) hl rfl rfl hrun]
      exact List.Pairwise.nil

/-- Witness for C15: capacity 2, ttl 60, calls at the clock readings 0, 1, 1, 5, 9. -/
theorem order_monotonicity_witness :
    (([Op.push 0 1 "one", Op.push 1 2 "two", Op.get 1 1, Op.push 5 3 "three",
        Op.remove 9 2] : List (Op Nat String)).map Op.time).Pairwise (fun a b => a ≤ b) ∧
    (((1 : Int) ≤ 2 → ∃ s, (New Nat String 2 60).run
        ([Op.push 0 1 "one", Op.push 1 2 "two", Op.get 1 1, Op.push 5 3 "three",
          Op.remove 9 2].take 4) = some s) ∧
    ∀ s, (New Nat String 2 60).run
        ([Op.push 0 1 "one", Op.push 1 2 "two", Op.get 1 1, Op.push 5 3 "three",
          Op.remove 9 2].take 4) = some s →
      s.ttlList.Pairwise (fun a b => a.Value.ExpiresAt ≤ b.Value.ExpiresAt)) :=
  ⟨by decide, order_monotonicity 2 60
    [Op.push 0 1 "one", Op.push 1 2 "two", Op.get 1 1, Op.push 5 3 "three", Op.remove 9 2] 4
    (by decide)⟩

/-- C16. Sweep correctness: on a state that satisfies the bijection and whose ordering list
has non-decreasing expirations, `unsafeClear` at time `now` removes exactly the nodes with
`ExpiresAt < now`, keeps the others in their order, deletes exactly the rows of the removed
nodes' keys and keeps the value of every other row; afterwards no tracked entry is expired
at `now` and the bijection still holds. -/
theorem sweep_correctness (s : LRUCache K V) (now : Int) (hb : s.Bijection)
    (ho : expiryOrdered s.ttlList) :
    (s.unsafeClear now).ttlList = s.ttlList.filter (fun e => decide (now ≤ e.Value.ExpiresAt)) ∧
    (∀ k, mapGet (s.unsafeClear now).cache k =
      if k ∈ (s.ttlList.filter (fun e => decide (e.Value.ExpiresAt < now))).map
          (fun e => e.Value.Key)
      then none else mapGet s.cache k) ∧
    (s.unsafeClear now).entries = s.entries.filter (fun e => decide (now ≤ e.2.1)) ∧
    (∀ e ∈ (s.unsafeClear now).ttlList, e.Value.isExpired now = false) ∧
    (s.unsafeClear now).Bijection := by
  have hlist : (s.unsafeClear now).ttlList =
      s.ttlList.filter (fun e => decide (now ≤ e.Value.ExpiresAt)) := by
    rw [unsafeClear_ttlList, dropWhile_eq_filter_of_ordered now _ ho]
    apply List.filter_congr
    intro e _
    by_cases h : e.Value.ExpiresAt < now
    · simp [listItem.isExpired, h, not_le.2 h]
    · simp [listItem.isExpired, h, not_lt.1 h]
  refine ⟨hlist, ?_, ?_, ?_, hb.unsafeClear now⟩
  · intro k
    rw [mapGet_unsafeClear, takeWhile_eq_filter_of_ordered now _ ho]
    rfl
  · unfold entries
    rw [hlist, List.filter_map]
    apply List.map_congr_left
    intro e he
    rw [← hlist] at he
    rw [mapGet_unsafeClear_of_mem hb now he]
  · intro e he
    rw [hlist] at he
    have := (List.mem_filter.1 he).2
    simp only [listItem.isExpired, decide_eq_false_iff_not, not_lt]
    simpa using this

/-- Witness for C16: the two entries of `TestClearExpired`, swept at time 101, when the first
has expired and the second has not. -/
theorem sweep_correctness_witness :
    clearExpiredScenario.Bijection ∧ expiryOrdered clearExpiredScenario.ttlList ∧
    (clearExpiredScenario.unsafeClear 101).keys = [2] ∧
    ((clearExpiredScenario.unsafeClear 101).ttlList =
      clearExpiredScenario.ttlList.filter (fun e => decide (101 ≤ e.Value.ExpiresAt)) ∧
    (∀ k, mapGet (clearExpiredScenario.unsafeClear 101).cache k =
      if k ∈ (clearExpiredScenario.ttlList.filter
          (fun e => decide (e.Value.ExpiresAt < 101))).map (fun e => e.Value.Key)
      then none else mapGet clearExpiredScenario.cache k) ∧
    (clearExpiredScenario.unsafeClear 101).entries =
      clearExpiredScenario.entries.filter (fun e => decide (101 ≤ e.2.1)) ∧
    (∀ e ∈ (clearExpiredScenario.unsafeClear 101).ttlList, e.Value.isExpired 101 = false) ∧
    (clearExpiredScenario.unsafeClear 101).Bijection) :=
  ⟨by decide, by decide, by decide,
    sweep_correctness clearExpiredScenario 101 (by decide) (by decide)⟩


/-- C17. Eviction precedes replacement: when, after the sweep, the cache holds exactly `limit`
entries (`limit ≥ 2`) and key `k` is tracked but is not the front entry, `Push(k, v)` evicts
the front entry before it replaces `k`: afterwards the former front key is in neither
structure, `k` holds the new value, and `Len` is `limit - 1`. -/
theorem eviction_precedes_replacement (s : LRUCache K V) (now : Int) (k : K) (v : V)
    (front : Element K) (hb : s.Bijection) (hl : 2 ≤ s.limit)
    (hfull : (s.unsafeClear now).Len = s.limit)
    (hfront : (s.unsafeClear now).ttlList.head? = some front)
    (hk : mapGet (s.unsafeClear now).cache k ≠ none) (hne : front.Value.Key ≠ k) :
    ∃ s1, s.Push now k v = some s1 ∧ mapGet s1.cache front.Value.Key = none ∧
      front.Value.Key ∉ s1.keys ∧ (mapGet s1.cache k).map (fun r => r.Value) = some v ∧
      s1.Len = s.limit - 1 := by
  have hb1 := hb.unsafeClear now
  have hpush := Push_eq hb (by omega) now k v
  have hlen : (s.unsafeClear now).limit ≤ (((s.unsafeClear now).ttlList.length : Nat) : Int) := by
    show s.limit ≤ _
    rw [← hfull]
    exact le_refl _
  rw [evictFront_of_full hfront hlen] at hpush
  have hbs1 := Bijection.Push hb (by omega) hpush
  have hfnone : mapGet ((((s.unsafeClear now).dropKey front.Value.Key).dropKey k).pushBack
      now k v).cache front.Value.Key = none := by
    show mapGet (mapSet _ k _) front.Value.Key = none
    rw [mapGet_mapSet, if_neg hne, mapGet_dropKey, if_neg hne, mapGet_dropKey, if_pos rfl]
  refine ⟨_, hpush, hfnone, hbs1.not_mem_keys hfnone, ?_, ?_⟩
  · show (mapGet (mapSet _ k _) k).map _ = _
    rw [mapGet_mapSet, if_pos rfl]
    rfl
  · have hfk : front.Value.Key ∈ (s.unsafeClear now).keys :=
      mem_keys.2 ⟨front, List.mem_of_mem_head? hfront, rfl⟩
    have hkk : k ∈ ((s.unsafeClear now).dropKey front.Value.Key).keys :=
      mem_keys_dropKey.2 ⟨(hb1.mapGet_ne_none_iff k).1 hk, fun e => hne e.symm⟩
    have h1 := length_dropKey hb1 hfk
    have h2 := length_dropKey (hb1.dropKey front.Value.Key) hkk
    have hfull' : (((s.unsafeClear now).ttlList.length : Nat) : Int) = s.limit := hfull
    show ((((((s.unsafeClear now).dropKey front.Value.Key).dropKey k).ttlList ++ [_]).length :
      Nat) : Int) = s.limit - 1
    rw [List.length_append, List.length_singleton]
    omega

/-- Witness for C17: capacity 2, `Push(1)`, `Push(2)`, then `Push(2, "x")` leaves key 1 absent
and `Len` 1. -/
theorem eviction_precedes_replacement_witness :
    (New Nat String 2 60).run [Op.push 0 1 "one", Op.push 1 2 "two"] = some fullScenario ∧
    fullScenario.Bijection ∧ 2 ≤ fullScenario.limit ∧
    (fullScenario.unsafeClear 2).Len = fullScenario.limit ∧
    (fullScenario.unsafeClear 2).ttlList.head? =
      some { id := 0, Value := { Key := 1, ExpiresAt := 60 } } ∧
    mapGet (fullScenario.unsafeClear 2).cache 2 ≠ none ∧
    (fullScenario.Push 2 2 "x").map (fun s1 => ((s1.Get 3 1).1, s1.Len)) =
      some (("", false), 1) ∧
    ∃ s1, fullScenario.Push 2 2 "x" = some s1 ∧ mapGet s1.cache 1 = none ∧
      1 ∉ s1.keys ∧ (mapGet s1.cache 2).map (fun r => r.Value) = some "x" ∧
      s1.Len = fullScenario.limit - 1 :=
  ⟨by decide, by decide, by decide, by decide, by decide, by decide, by decide,
    eviction_precedes_replacement fullScenario 2 2 "x"
      { id := 0, Value := { Key := 1, ExpiresAt := 60 } } (by decide) (by decide) (by decide)
      (by decide) (by decide) (by decide)⟩

/-- C18. Push frame: on a state that satisfies the bijection and order-monotonicity, with
`limit ≥ 1`, `Push(k, v)` at time `now` completes and leaves the entries that are not expired
at `now`, without their front one when they are `limit` or more, without the old entry of
`k`, in their order and with their values and expirations, followed by the new entry of `k`.
When the entries that are not expired are fewer than `limit`, none of them is evicted. -/
theorem push_frame (s : LRUCache K V) (now : Int) (k : K) (v : V) (hb : s.Bijection)
    (ho : expiryOrdered s.ttlList) (hl : 1 ≤ s.limit) :
    ∃ s1, s.Push now k v = some s1 ∧
      s1.entries =
        (if s.limit ≤ ((s.entries.filter (fun e => decide (now ≤ e.2.1))).length : Int)
          then (s.entries.filter (fun e => decide (now ≤ e.2.1))).tail
          else s.entries.filter (fun e => decide (now ≤ e.2.1))).filter
            (fun e => decide (e.1 ≠ k)) ++ [(k, now + s.ttl, some v)] ∧
      (((s.entries.filter (fun e => decide (now ≤ e.2.1))).length : Int) < s.limit →
        s1.entries =
          (s.entries.filter (fun e => decide (now ≤ e.2.1))).filter
            (fun e => decide (e.1 ≠ k)) ++ [(k, now + s.ttl, some v)]) := by
  have hb1 := hb.unsafeClear now
  have hnone : mapGet (((s.unsafeClear now).evictFront).dropKey k).cache k = none := by
    rw [mapGet_dropKey]; simp
  have httl : (((s.unsafeClear now).evictFront).dropKey k).ttl = s.ttl := by
    show ((s.unsafeClear now).evictFront).ttl = s.ttl
    rw [evictFront_ttl]; rfl
  have hent : ((((s.unsafeClear now).evictFront).dropKey k).pushBack now k v).entries =
      (if s.limit ≤ ((s.entries.filter (fun e => decide (now ≤ e.2.1))).length : Int)
        then (s.entries.filter (fun e => decide (now ≤ e.2.1))).tail
        else s.entries.filter (fun e => decide (now ≤ e.2.1))).filter
          (fun e => decide (e.1 ≠ k)) ++ [(k, now + s.ttl, some v)] := by
    rw [entries_pushBack (hb1.evictFront.dropKey k) now v hnone, httl, entries_dropKey,
      entries_evictFront hb1, ← length_entries, entries_unsafeClear_of_ordered hb ho now]
    rfl
  refine ⟨_, Push_eq hb hl now k v, hent, ?_⟩
  intro hlt
  rw [hent, if_neg (not_le.2 hlt)]

/-- Witness for C18, the scenario of `TestClearExpired`: capacity 10, ttl 100, keys 1 and 2
pushed at the times 0 and 1, then `Push(3, "three")` at time 300 keeps only key 3. -/
theorem push_frame_witness :
    (New Nat String 10 100).run [Op.push 0 1 "one", Op.push 1 2 "two"] =
      some clearExpiredScenario ∧
    clearExpiredScenario.Bijection ∧ expiryOrdered clearExpiredScenario.ttlList ∧
    1 ≤ clearExpiredScenario.limit ∧
    (clearExpiredScenario.Push 300 3 "three").map (fun s1 => s1.entries) =
      some [(3, 400, some "three")] ∧
    ∃ s1, clearExpiredScenario.Push 300 3 "three" = some s1 ∧
      s1.entries =
        (if clearExpiredScenario.limit ≤
            ((clearExpiredScenario.entries.filter (fun e => decide (300 ≤ e.2.1))).length : Int)
          then (clearExpiredScenario.entries.filter (fun e => decide (300 ≤ e.2.1))).tail
          else clearExpiredScenario.entries.filter (fun e => decide (300 ≤ e.2.1))).filter
            (fun e => decide (e.1 ≠ 3)) ++ [(3, 300 + clearExpiredScenario.ttl, some "three")] ∧
      (((clearExpiredScenario.entries.filter (fun e => decide (300 ≤ e.2.1))).length : Int) <
          clearExpiredScenario.limit →
        s1.entries =
          (clearExpiredScenario.entries.filter (fun e => decide (300 ≤ e.2.1))).filter
            (fun e => decide (e.1 ≠ 3)) ++
            [(3, 300 + clearExpiredScenario.ttl, some "three")]) :=
  ⟨by decide, by decide, by decide, by decide, by decide,
    push_frame clearExpiredScenario 300 3 "three" (by decide) (by decide) (by decide)⟩

/-- C19. Get frame: on a state that satisfies the bijection, when key `k` has a row after the
sweep at time `now`, `Get(k)` returns the row's value and leaves the table of the swept
state untouched; the tracked keys and `Len` are those of the swept state, and the entries
are those of the swept state in their order, with their values and expirations, except that
the entry of `k` is moved to the back with expiration `now + ttl`. -/
theorem get_frame [Inhabited V] (s : LRUCache K V) (now : Int) (k : K) (r : cacheItem V)
    (hb : s.Bijection) (hrow : mapGet (s.unsafeClear now).cache k = some r) :
    (s.Get now k).1 = (r.Value, true) ∧
    (s.Get now k).2.cache = (s.unsafeClear now).cache ∧
    (∀ k', k' ∈ (s.Get now k).2.keys ↔ k' ∈ (s.unsafeClear now).keys) ∧
    (s.Get now k).2.Len = (s.unsafeClear now).Len ∧
    (s.Get now k).2.entries =
      (s.unsafeClear now).entries.filter (fun e => decide (e.1 ≠ k)) ++
        [(k, now + s.ttl, some r.Value)] := by
  have hb1 := hb.unsafeClear now
  have hk : k ∈ (s.unsafeClear now).keys := (hb1.mapGet_ne_none_iff k).1 (by rw [hrow]; simp)
  rw [Get_eq_of_some hb hrow]
  refine ⟨rfl, rfl, ?_, ?_, entries_touch _ now r.Node hrow⟩
  · intro k'
    have hsplit : k' ∈ ((s.unsafeClear now).touch now k r.Node).keys ↔
        k' ∈ ((s.unsafeClear now).dropKey k).keys ∨ k' = k := by
      show k' ∈ List.map _ (_ ++ [_]) ↔ _
      rw [List.map_append, List.mem_append]
      simp [keys, dropKey]
    rw [hsplit, mem_keys_dropKey]
    constructor
    · rintro (⟨h, _⟩ | h)
      · exact h
      · rw [h]; exact hk
    · intro h
      by_cases hkk : k' = k
      · exact Or.inr hkk
      · exact Or.inl ⟨h, hkk⟩
  · have h1 := length_dropKey hb1 hk
    show (((((s.unsafeClear now).dropKey k).ttlList ++ [_]).length : Nat) : Int) =
      (((s.unsafeClear now).ttlList.length : Nat) : Int)
    rw [List.length_append, List.length_singleton, h1]

/-- Witness for C19: on the full cache holding the keys 1 and 2, `Get(1)` at time 2 moves
key 1 behind key 2. -/
theorem get_frame_witness :
    fullScenario.Bijection ∧
    mapGet (fullScenario.unsafeClear 2).cache 1 = some { Value := "one", Node := 0 } ∧
    (fullScenario.Get 2 1).2.keys = [2, 1] ∧
    (fullScenario.Get 2 1).1 = ("one", true) ∧
    (fullScenario.Get 2 1).2.cache = (fullScenario.unsafeClear 2).cache ∧
    (∀ k', k' ∈ (fullScenario.Get 2 1).2.keys ↔ k' ∈ (fullScenario.unsafeClear 2).keys) ∧
    (fullScenario.Get 2 1).2.Len = (fullScenario.unsafeClear 2).Len ∧
    (fullScenario.Get 2 1).2.entries =
      (fullScenario.unsafeClear 2).entries.filter (fun e => decide (e.1 ≠ 1)) ++
        [(1, 2 + fullScenario.ttl, some "one")] :=
  ⟨by decide, by decide, by decide,
    get_frame fullScenario 2 1 { Value := "one", Node := 0 } (by decide) (by decide)⟩

/-- C20. Push never dereferences a missing node when `limit ≥ 1`: on a state that satisfies
the bijection, the eviction branch of `Push` is entered only with a non-empty list, whose
front key has a row that refers to a node of the list; the eviction step and the replace
step both complete, a row found for the pushed key refers to a node of the list, and `Push`
returns. -/
theorem push_no_nil_dereference (s : LRUCache K V) (now : Int) (k : K) (v : V)
    (hb : s.Bijection) (hl : 1 ≤ s.limit) :
    (s.limit ≤ (s.unsafeClear now).Len →
      ∃ front r, (s.unsafeClear now).ttlList.head? = some front ∧
        mapGet (s.unsafeClear now).cache front.Value.Key = some r ∧
        ∃ e ∈ (s.unsafeClear now).ttlList, e.id = r.Node) ∧
    ∃ s2 s3, (s.unsafeClear now).evict = some s2 ∧
      (∀ r, mapGet s2.cache k = some r → ∃ e ∈ s2.ttlList, e.id = r.Node) ∧
      s2.dropExisting k = some s3 ∧ s.Push now k v = some (s3.pushBack now k v) := by
  have hb1 := hb.unsafeClear now
  have hl1 : 1 ≤ (s.unsafeClear now).limit := hl
  constructor
  · intro hfull
    have hlen : 1 ≤ (((s.unsafeClear now).ttlList.length : Nat) : Int) := le_trans hl hfull
    cases hlist : (s.unsafeClear now).ttlList with
    | nil => rw [hlist] at hlen; simp at hlen
    | cons front rest =>
      have hmem : front ∈ (s.unsafeClear now).ttlList := by rw [hlist]; simp
      obtain ⟨r, hr, hri⟩ := hb1.row_of_node hmem
      exact ⟨front, r, rfl, hr, front, by simp, hri.symm⟩
  · refine ⟨_, _, evict_eq hb1 hl1, ?_, dropExisting_eq hb1.evictFront k, Push_eq hb hl now k v⟩
    intro r hr
    obtain ⟨e, he, _, hei⟩ := hb1.evictFront.node_of_row hr
    exact ⟨e, he, hei⟩

/-- Witness for C20: the full cache of capacity 2, `Push(3, "three")` at time 2. -/
theorem push_no_nil_dereference_witness :
    fullScenario.Bijection ∧ 1 ≤ fullScenario.limit ∧
    ((fullScenario.limit ≤ (fullScenario.unsafeClear 2).Len →
      ∃ front r, (fullScenario.unsafeClear 2).ttlList.head? = some front ∧
        mapGet (fullScenario.unsafeClear 2).cache front.Value.Key = some r ∧
        ∃ e ∈ (fullScenario.unsafeClear 2).ttlList, e.id = r.Node) ∧
    ∃ s2 s3, (fullScenario.unsafeClear 2).evict = some s2 ∧
      (∀ r, mapGet s2.cache 3 = some r → ∃ e ∈ s2.ttlList, e.id = r.Node) ∧
      s2.dropExisting 3 = some s3 ∧
      fullScenario.Push 2 3 "three" = some (s3.pushBack 2 3 "three")) :=
  ⟨by decide, by decide,
    push_no_nil_dereference fullScenario 2 3 "three" (by decide) (by decide)⟩

end Claims
